import Mathlib

/-!
# CdbManager: a fixed-schema binary record store

Shallow embedding of the class template `Database::Cdb<T>` of `CdbManager.h`
together with machine-checked statements about its file format, its queries
and its in-place mutation.

## Modelling conventions

* A byte string (`Bytes`) is a list of naturals, one per `char`.  File
  contents, `std::string` values, C strings and object images are byte strings.
* The record type `T` is a template parameter whose members are enumerated by
  the external `visit_struct` facility.  It enters the model as a
  `RecordType`: the reflected members in declaration order (name, offset in
  the object, kind) and `sizeof(T)`.
* A record is the `sizeof(T)`-byte object image of a `T`; `std::memcpy` and
  `reinterpret_cast<const char*>(&entry)` are then the identity on it.
* A scalar member or probe is represented by the unsigned little-endian value
  of its object bytes, so `==` between a member and a probe of the member's
  own integer type is equality of these values.  Floating-point members are
  outside the model.
* A textual probe is a `const char*`, given by the bytes it points to.
* `std::unordered_map` is the list of its (identifier, record) pairs in
  iteration order.  Where a new key appears in that order is left to a
  parameter `slot`.
* `std::ofstream` is the byte string written so far; `std::ifstream` is the
  byte string of the file.
-/

namespace Database

/-- One element per `char`. -/
abbrev Bytes := List Nat

/-- Object image of one `T`. -/
abbrev Record := Bytes

/-! ## Byte-level helpers -/

/-- Object bytes of an unsigned integer of `w` bytes holding `n` (low byte first);
the value is reduced modulo `2^(8*w)`. -/
def toLE : Nat → Nat → Bytes
  | 0, _ => []
  | w + 1, n => n % 256 :: toLE w (n / 256)

/-- Unsigned value of little-endian object bytes. -/
def ofLE : Bytes → Nat
  | [] => 0
  | b :: bs => b + 256 * ofLE bs

/-- The bytes `[off, off + len)` of an object image. -/
def slice (r : Bytes) (off len : Nat) : Bytes :=
  (r.drop off).take len

/-- Overwrite the bytes of `r` starting at `off` with `bs`. -/
def overwrite (r : Bytes) (off : Nat) (bs : Bytes) : Bytes :=
  r.take off ++ bs ++ r.drop (off + bs.length)

/-- Content of `std::string{ p }` for a `const char* p`: the bytes before the
first zero byte.  (For a buffer holding no zero byte the C++ read runs past the
buffer; the model stops at the end of the buffer.) -/
def cstr (p : Bytes) : Bytes :=
  p.takeWhile (fun b => b != 0)

/-- Effect of `std::string::resize(n, c)`. -/
def resize (s : Bytes) (n c : Nat) : Bytes :=
  s.take n ++ List.replicate (n - s.length) c

/-- Effect of `std::ostream::write(data, n)` on the bytes written so far. -/
def write (output : Bytes) (data : Bytes) (n : Nat) : Bytes :=
  output ++ data.take n

/-- Byte string of an ASCII literal. -/
def ascii (s : String) : Bytes :=
  s.data.map Char.toNat

/-! ## The record type `T` as seen through `visit_struct` -/

/-- Kind of a reflected member: an arithmetic member of `size` bytes, or a
`char[cap]` buffer. -/
inductive FieldKind where
  | scalar (size : Nat)
  | text (cap : Nat)
  deriving DecidableEq, Repr

/-- The value `sizeof(visit_struct::type_at<I, T>)`. -/
def FieldKind.byteSize : FieldKind → Nat
  | .scalar size => size
  | .text cap => cap

/-- One reflected member of `T`. -/
structure FieldDesc where
  name : Bytes
  offset : Nat
  kind : FieldKind
  deriving DecidableEq, Repr

/-- The template parameter `T`. -/
structure RecordType where
  fields : List FieldDesc
  sizeofT : Nat

/-- What `visit_struct::for_each` hands to the visitor as `inner_value`. -/
inductive Inner where
  | scalar (v : Nat)
  | text (buf : Bytes)
  deriving DecidableEq, Repr

/-- The `value` argument of a query: an arithmetic value, or a `const char*`
given by the bytes it points to. -/
inductive Probe where
  | scalar (v : Nat)
  | text (p : Bytes)
  deriving DecidableEq, Repr

/-- Read member `f` of the record `r`. -/
def readField (r : Record) (f : FieldDesc) : Inner :=
  match f.kind with
  | .scalar size => .scalar (ofLE (slice r f.offset size))
  | .text cap => .text (slice r f.offset cap)

/-! ## The store -/

/-- Data members of `Cdb<T>`. -/
structure Cdb where
  m_entries : List (Nat × Record)
  m_keys : List Bytes
  m_entry_num : Nat

/-- Effect of `m[k] = v` on an `unordered_map`: an existing key keeps its place
and gets the new value, a new key is inserted at the place `slot` chooses. -/
def assign (slot : List Nat → Nat → Nat) (m : List (Nat × Record)) (k : Nat)
    (v : Record) : List (Nat × Record) :=
  if m.any (fun e => e.1 == k) then
    m.map (fun e => if e.1 = k then (e.1, v) else e)
  else
    m.take (slot (m.map Prod.fst) k) ++ (k, v) :: m.drop (slot (m.map Prod.fst) k)

/-- `Cdb::add_keys_from_struct`: push the name of every member of `T`. -/
def add_keys_from_struct (T : RecordType) (s : Cdb) : Cdb :=
  T.fields.foldl (fun st f => { st with m_keys := st.m_keys ++ [f.name] }) s

/-- The default constructor. -/
def CdbReader (T : RecordType) : Cdb :=
  add_keys_from_struct T { m_entries := [], m_keys := [], m_entry_num := 0 }

/-- `Cdb::total_entries`. -/
def total_entries (s : Cdb) : Nat :=
  s.m_entries.length

/-- `Cdb::addEntry`: `m_entries[m_entry_num++] = t`. -/
def addEntry (slot : List Nat → Nat → Nat) (s : Cdb) (t : Record) : Cdb :=
  { s with m_entries := assign slot s.m_entries s.m_entry_num t,
           m_entry_num := s.m_entry_num + 1 }

/-- The `while` loop of `Cdb::parse` on the unread bytes `rest` of the stream.
An iteration runs when the stream is good and `peek()` finds a byte.  `read`
fills the buffer with up to `sizeof(T)` bytes; the bytes of the buffer it does
not reach keep the indeterminate contents `uninit`.  The buffer is stored
under the next identifier in either case.  A short read sets `failbit`, which
ends the loop.  `fuel` bounds the number of iterations. -/
def parse_loop (T : RecordType) (slot : List Nat → Nat → Nat) (uninit : Record) :
    Nat → Bytes → Cdb → Cdb
  | 0, _, s => s
  | fuel + 1, rest, s =>
    match rest with
    | [] => s
    | _ :: _ =>
      let got := rest.take T.sizeofT
      let buffer := got ++ uninit.drop got.length
      let s1 := addEntry slot s buffer
      if got.length < T.sizeofT then s1
      else parse_loop T slot uninit fuel (rest.drop T.sizeofT) s1

/-- `Cdb::parse` on the contents `file` of the named file.  When the four
bytes of the key count cannot be read, `failbit` is set, `seekg` does nothing
and the loop is not entered.  `total_keys * 34` and the sum are `unsigned int`
arithmetic.  A seek to or past the end leaves nothing to read. -/
def parse (T : RecordType) (slot : List Nat → Nat → Nat) (uninit : Record)
    (file : Bytes) (s : Cdb) : Cdb :=
  if file.length < 4 then s
  else
    let total_keys := ofLE (file.take 4) % 2 ^ 32
    let header_bytes_num := (4 + total_keys * 34 % 2 ^ 32) % 2 ^ 32
    let rest := file.drop header_bytes_num
    parse_loop T slot uninit rest.length rest s

/-- `Cdb::publish_type_helper<I>` on the members of `T` from position `I` on:
write `sizeof` of each as the low four bytes of a `std::size_t`. -/
def publish_type_helper : List FieldDesc → Bytes → Bytes
  | [], output => output
  | f :: fs, output => publish_type_helper fs (write output (toLE 8 f.kind.byteSize) 4)

/-- `Cdb::publish`: the bytes written to the file. -/
def publish (T : RecordType) (s : Cdb) : Bytes :=
  let output : Bytes := []
  let size := s.m_keys.length
  let output := write output (toLE 8 size) 4
  let output := s.m_keys.foldl (fun out key => write out (resize key 30 0) 30) output
  let output := publish_type_helper T.fields output
  s.m_entries.foldl (fun out e => write out e.2 T.sizeofT) output

/-! ## Queries -/

/-- The two overloads of `Cdb::contains_helper`.  For a `char` buffer overload
resolution selects the one taking `const char* inner`; for an arithmetic member
only the generic one is viable. -/
def contains_helper (inner : Inner) (val : Probe) : Bool :=
  match inner, val with
  | .scalar _, .text _ => false
  | .scalar a, .scalar v => a == v
  | .text buf, .text p => cstr buf == cstr p
  | .text _, .scalar _ => false

/-- `Cdb::count_matches`: the outer loop runs over the table, the inner one is
`visit_struct::for_each` over the members of the record. -/
def count_matches (T : RecordType) (s : Cdb) (key : Bytes) (value : Probe) : Nat :=
  s.m_entries.foldl
    (fun occurrences e =>
      T.fields.foldl
        (fun occ f =>
          if f.name = key then
            if contains_helper (readField e.2 f) value then occ + 1 else occ
          else occ)
        occurrences)
    0

/-- `Cdb::contains`, with its `std::size_t` return type. -/
def contains (T : RecordType) (s : Cdb) (keys : Bytes) (value : Probe) : Nat :=
  if count_matches T s keys value > 0 then 1 else 0

/-- `Cdb::get_entry(key, value)`; the state of the loops is `(found, ret)`. -/
def get_entry (T : RecordType) (s : Cdb) (key : Bytes) (value : Probe) : Option Record :=
  let st := s.m_entries.foldl
    (fun (st : Bool × Option Record) e =>
      T.fields.foldl
        (fun (st : Bool × Option Record) f =>
          if f.name = key ∧ st.1 = false then
            let found := contains_helper (readField e.2 f) value
            (found, if found then some e.2 else st.2)
          else st)
        st)
    (false, none)
  if st.1 then st.2 else none

/-- `Cdb::get_entry(entry_num)`. -/
def get_entry_by_id (s : Cdb) (entry_num : Nat) : Option Record :=
  if s.m_entries.any (fun e => e.1 == entry_num) then
    (s.m_entries.find? (fun e => e.1 == entry_num)).map Prod.snd
  else none

/-- `Cdb::addEntries`: `addEntry` on each argument, left to right. -/
def addEntries (slot : List Nat → Nat → Nat) (s : Cdb) (ts : List Record) : Cdb :=
  ts.foldl (addEntry slot) s

/-! ## Mutation -/

/-- The visitor of the generic `Cdb::replace_value<T>` applied to member `f` of
the record `r`.  Members convertible to `const char*` are skipped by the
`if constexpr`; for the others `inner_value = new_value` stores the object
bytes of `new_value`. -/
def replace_visit (key : Bytes) (value new_value : Nat) (r : Record) (f : FieldDesc) :
    Record :=
  match f.kind with
  | .scalar size =>
    if f.name = key ∧ ofLE (slice r f.offset size) = value then
      overwrite r f.offset (toLE size new_value)
    else r
  | .text _ => r

/-- The generic `Cdb::replace_value<T>(key, value, new_value)`. -/
def replace_value (T : RecordType) (key : Bytes) (value new_value : Nat) (s : Cdb) : Cdb :=
  { s with m_entries :=
      s.m_entries.map (fun e => (e.1, T.fields.foldl (replace_visit key value new_value) e.2)) }

/-- The call `strncpy_s(dest, numberOfElements, src, count)`: with `D` the
lesser of `count` and the length of the string at `src`, when `D` characters and
a terminator fit, they are stored at the start of `dest` and the bytes after
the terminator stay as they were.  (Otherwise the invalid-parameter handler
runs; with `count = numberOfElements - 1` this does not happen.) -/
def strncpy_s (dest : Bytes) (numberOfElements : Nat) (src : Bytes) (count : Nat) : Bytes :=
  let d := min count (cstr src).length
  if d < numberOfElements then overwrite dest 0 ((cstr src).take d ++ [0]) else dest

/-- The visitor of `Cdb::replace_value(key, const char*, const char*)` applied
to member `f` of the record `r`.  Only members convertible to `const char*`
pass the `if constexpr`. -/
def replace_visit_cstr (key : Bytes) (value new_value : Bytes) (r : Record) (f : FieldDesc) :
    Record :=
  match f.kind with
  | .text cap =>
    if f.name = key ∧ cstr (slice r f.offset cap) = cstr value then
      overwrite r f.offset (strncpy_s (slice r f.offset cap) cap new_value (cap - 1))
    else r
  | .scalar _ => r

/-- The overload `Cdb::replace_value(key, const char* value, const char* new_value)`. -/
def replace_value_cstr (T : RecordType) (key : Bytes) (value new_value : Bytes) (s : Cdb) :
    Cdb :=
  { s with m_entries :=
      s.m_entries.map (fun e => (e.1, T.fields.foldl (replace_visit_cstr key value new_value) e.2)) }

/-- The two value arguments of a call `replace_value(key, value, new_value)`;
both have one type. -/
inductive ValuePair where
  | scalar (value new_value : Nat)
  | text (value new_value : Bytes)
  deriving DecidableEq, Repr

/-- The `value` argument seen as a query probe. -/
def ValuePair.probe : ValuePair → Probe
  | .scalar value _ => .scalar value
  | .text value _ => .text value

/-- Overload resolution of the call `replace_value(key, value, new_value)`: two
`const char*` arguments select the non-template overload, arithmetic arguments
the template. -/
def replace_value_call (T : RecordType) (key : Bytes) (args : ValuePair) (s : Cdb) : Cdb :=
  match args with
  | .scalar value new_value => replace_value T key value new_value s
  | .text value new_value => replace_value_cstr T key value new_value s

/-! ## Well-formedness and the specification's reference definitions -/

/-- Two members occupy disjoint byte ranges. -/
def FieldDesc.Disjoint (f g : FieldDesc) : Prop :=
  f.offset + f.kind.byteSize ≤ g.offset ∨ g.offset + g.kind.byteSize ≤ f.offset

instance (f g : FieldDesc) : Decidable (f.Disjoint g) := by
  unfold FieldDesc.Disjoint; infer_instance

/-- The layout of a C++ class: member names are distinct, every member lies
inside the object, and distinct members do not overlap. -/
def RecordType.WF (T : RecordType) : Prop :=
  (T.fields.map FieldDesc.name).Nodup
    ∧ (∀ f ∈ T.fields, f.offset + f.kind.byteSize ≤ T.sizeofT)
    ∧ T.fields.Pairwise FieldDesc.Disjoint

instance (T : RecordType) : Decidable T.WF := by
  unfold RecordType.WF; infer_instance

/-- Type-directed equality in the words of the specification: text against
text by string content, scalar against scalar by value, false across kinds. -/
def typeDirectedEq (inner : Inner) (v : Probe) : Bool :=
  match inner, v with
  | .text buf, .text p => decide (cstr buf = cstr p)
  | .scalar a, .scalar b => decide (a = b)
  | _, _ => false

/-- The probe `v` is textual and the member scalar, or the probe scalar and the
member textual. -/
def kindDiffers (kind : FieldKind) (v : Probe) : Bool :=
  match kind, v with
  | .scalar _, .text _ => true
  | .text _, .scalar _ => true
  | _, _ => false

/-- The record `r` has a member named `k` that equals `v`. -/
def fieldEquals (T : RecordType) (r : Record) (k : Bytes) (v : Probe) : Bool :=
  T.fields.any (fun f => decide (f.name = k) && typeDirectedEq (readField r f) v)

/-- Reference definition of `count_matches`: the number of records whose member
named `k` equals `v`. -/
def countRecords (T : RecordType) (s : Cdb) (k : Bytes) (v : Probe) : Nat :=
  (s.m_entries.filter (fun e => fieldEquals T e.2 k v)).length

/-- The effect of `replace_value(k, value, new_value)` on one member in the
words of the specification: a member named `k` that equalled `value` is set to
`new_value` (a scalar holds exactly `new_value`; a text holds `new_value` cut to
what the buffer takes, at most capacity - 1 bytes and the terminator); any
other member is as before. -/
def fieldSetToNew (f : FieldDesc) (k : Bytes) (args : ValuePair) (before after : Inner) :
    Prop :=
  if f.name = k ∧ typeDirectedEq before args.probe = true then
    match args with
    | .scalar _ new_value => after = .scalar new_value
    | .text _ new_value =>
      ∃ buf, after = .text buf ∧ buf.length = f.kind.byteSize
        ∧ cstr buf = (cstr new_value).take (f.kind.byteSize - 1)
  else after = before

/-- A scalar `new_value` is representable in a scalar member of the given kind
(it is below `256 ^ size`).  Nothing is asked of a text value or a text member. -/
def representable (kind : FieldKind) (args : ValuePair) : Bool :=
  match kind, args with
  | .scalar size, .scalar _ new_value => decide (new_value < 256 ^ size)
  | _, _ => true

/-- The effect of `replace_value(k, value, new_value)` on one member as the
code has it: the assignment `inner_value = new_value` narrows, so a scalar
member named `k` that equalled `value` holds `new_value` modulo
`256 ^ byteSize` afterwards; a text member holds `new_value` cut to at most
capacity - 1 bytes and the terminator; any other member is as before. -/
def fieldAfterReplace (f : FieldDesc) (k : Bytes) (args : ValuePair) (before after : Inner) :
    Prop :=
  if f.name = k ∧ typeDirectedEq before args.probe = true then
    match args with
    | .scalar _ new_value => after = .scalar (new_value % 256 ^ f.kind.byteSize)
    | .text _ new_value =>
      ∃ buf, after = .text buf ∧ buf.length = f.kind.byteSize
        ∧ cstr buf = (cstr new_value).take (f.kind.byteSize - 1)
  else after = before

/-- The store was built for `T`: its keys are the member names of `T` and every
stored record is the image of a `T`. -/
def Cdb.WF (T : RecordType) (s : Cdb) : Prop :=
  s.m_keys = T.fields.map FieldDesc.name ∧ ∀ e ∈ s.m_entries, e.2.length = T.sizeofT

instance (T : RecordType) (s : Cdb) : Decidable (s.WF T) := by
  unfold Cdb.WF; infer_instance

/-- Every identifier in the table lies below the counter `m_entry_num`. -/
def Cdb.Below (s : Cdb) : Prop :=
  ∀ e ∈ s.m_entries, e.1 < s.m_entry_num

instance (s : Cdb) : Decidable s.Below := by
  unfold Cdb.Below; infer_instance

/-- Number of `sizeof(T)`-byte reads needed to consume `n` bytes. -/
def blocks (T : RecordType) (n : Nat) : Nat :=
  (n + (T.sizeofT - 1)) / T.sizeofT

/-! ## Example record type of the specification: `{ char name[4]; uint32 age; }` -/

/-- A record type with a four-byte text member `name` and a four-byte scalar `age`. -/
def Person : RecordType :=
  { fields := [ { name := ascii "name", offset := 0, kind := .text 4 },
                { name := ascii "age", offset := 4, kind := .scalar 4 } ],
    sizeofT := 8 }

/-- Image of a `Person`. -/
def person (name : String) (age : Nat) : Record :=
  resize (ascii name) 3 0 ++ [0] ++ toLE 4 age

/-- The member `age` of `Person`. -/
def ageMember : FieldDesc :=
  { name := ascii "age", offset := 4, kind := .scalar 4 }

/-- Insertion at the end of the iteration order. -/
def slotBack (keys : List Nat) (_ : Nat) : Nat := keys.length

/-- The store of the specification's examples. -/
def exampleStore : Cdb :=
  addEntry slotBack (addEntry slotBack (addEntry slotBack (CdbReader Person)
    (person "a" 5)) (person "b" 5)) (person "a" 7)

/-- A store in which every `age` is 5. -/
def allFiveStore : Cdb :=
  addEntries slotBack (CdbReader Person) [person "a" 5, person "b" 5]

/-- The visitor loop of `replace_value_call` on one record. -/
def replace_in_record (T : RecordType) (key : Bytes) (args : ValuePair) (r : Record) : Record :=
  match args with
  | .scalar value new_value => T.fields.foldl (replace_visit key value new_value) r
  | .text value new_value => T.fields.foldl (replace_visit_cstr key value new_value) r

/-! ## Values, dense identifiers and reachable states -/

/-- The value a probe denotes: the number itself, or the string a `const char*`
points to. -/
def Probe.value : Probe → Probe
  | .scalar v => .scalar v
  | .text p => .text (cstr p)

/-- The value a member holds: the number, or the string in the buffer. -/
def Inner.value : Inner → Probe
  | .scalar v => .scalar v
  | .text buf => .text (cstr buf)

/-- The identifiers of the table are exactly `0, ..., m_entry_num - 1`, each once. -/
def Cdb.Dense (s : Cdb) : Prop :=
  (s.m_entries.map Prod.fst).Perm (List.range s.m_entry_num)

/-- States of a `Cdb<T>` reachable from the default constructor by the public
operations that change the object: `addEntries`, `parse` and the two
`replace_value` overloads.  The query operations (`count_matches`, `contains`,
`get_entry`, `get_entries`, `total_entries`, `print_entries`, `publish`) are
`const` and leave the state as it is. -/
inductive Reachable (T : RecordType) : Cdb → Prop where
  | fresh : Reachable T (CdbReader T)
  | of_addEntries (slot : List Nat → Nat → Nat) (ts : List Record) {s : Cdb} :
      Reachable T s → Reachable T (addEntries slot s ts)
  | of_parse (slot : List Nat → Nat → Nat) (uninit : Record) (file : Bytes) {s : Cdb} :
      Reachable T s → Reachable T (parse T slot uninit file s)
  | of_replace_value (key : Bytes) (args : ValuePair) {s : Cdb} :
      Reachable T s → Reachable T (replace_value_call T key args s)

/-- A 28-byte file whose key count is 126322568, for which `4 + K*34` is
`2^32 + 20`: 16 further bytes and one 8-byte block at offset 20. -/
def wrapFile (block : Bytes) : Bytes :=
  toLE 4 126322568 ++ List.replicate 16 0 ++ block

/-! ## Byte-level lemmas -/

theorem length_toLE (w n : Nat) : (toLE w n).length = w := by
  induction w generalizing n with
  | zero => rfl
  | succ w ih => simp [toLE, ih]

theorem ofLE_toLE (w n : Nat) : ofLE (toLE w n) = n % 256 ^ w := by
  induction w generalizing n with
  | zero => simp [toLE, ofLE, Nat.mod_one]
  | succ w ih =>
    simp only [toLE, ofLE, ih]
    rw [pow_succ', Nat.mod_mul]

theorem take_four_toLE_eight (n : Nat) : (toLE 8 n).take 4 = toLE 4 n := by
  simp [toLE]

theorem length_resize (s : Bytes) (n c : Nat) : (resize s n c).length = n := by
  simp only [resize, List.length_append, List.length_take, List.length_replicate]
  omega

theorem length_flatMap_const {α : Type} (g : α → Bytes) (n : Nat) (l : List α)
    (h : ∀ x ∈ l, (g x).length = n) : (l.flatMap g).length = l.length * n := by
  induction l with
  | nil => simp
  | cons a l ih =>
    have ha := h a (List.mem_cons_self a l)
    have hl := ih (fun x hx => h x (List.mem_cons_of_mem a hx))
    simp only [List.flatMap_cons, List.length_append, List.length_cons, ha, hl]
    rw [Nat.succ_mul]; omega

/-- In a concatenation of blocks of `n` bytes each, block `i` sits at offset `n * i`. -/
theorem slice_flatMap_const {α : Type} (g : α → Bytes) (n : Nat) (l : List α)
    (h : ∀ x ∈ l, (g x).length = n) (i : Nat) (x : α) (hx : l[i]? = some x) (rest : Bytes) :
    slice (l.flatMap g ++ rest) (n * i) n = g x := by
  induction l generalizing i with
  | nil => simp at hx
  | cons a l ih =>
    have ha := h a (List.mem_cons_self a l)
    cases i with
    | zero =>
      simp only [List.getElem?_cons_zero, Option.some.injEq] at hx
      subst hx
      simp only [slice, Nat.mul_zero, List.drop_zero, List.flatMap_cons, List.append_assoc]
      exact List.take_left' ha
    | succ i =>
      simp only [List.getElem?_cons_succ] at hx
      have := ih (fun y hy => h y (List.mem_cons_of_mem a hy)) i hx
      simp only [slice] at this ⊢
      have e : n * (i + 1) = (g a).length + n * i := by rw [ha, Nat.mul_succ]; omega
      rw [List.flatMap_cons, List.append_assoc, e, List.drop_append]
      exact this

theorem foldl_write {α : Type} (g : α → Bytes) (n : Nat) (l : List α) (init : Bytes) :
    l.foldl (fun out x => write out (g x) n) init
      = init ++ l.flatMap (fun x => (g x).take n) := by
  induction l generalizing init with
  | nil => simp
  | cons a l ih =>
    rw [List.foldl_cons, ih]
    simp [write, List.append_assoc]

theorem publish_type_helper_eq (fs : List FieldDesc) (output : Bytes) :
    publish_type_helper fs output
      = output ++ fs.flatMap (fun f => toLE 4 f.kind.byteSize) := by
  induction fs generalizing output with
  | nil => simp [publish_type_helper]
  | cons f fs ih =>
    simp [publish_type_helper, ih, write, take_four_toLE_eight, List.append_assoc]

/-- The four regions written by `publish`, one after the other. -/
theorem publish_eq (T : RecordType) (s : Cdb) :
    publish T s
      = toLE 4 s.m_keys.length
        ++ (s.m_keys.flatMap (fun key => resize key 30 0)
        ++ (T.fields.flatMap (fun f => toLE 4 f.kind.byteSize)
        ++ s.m_entries.flatMap (fun e => e.2.take T.sizeofT))) := by
  have hk : (s.m_keys.flatMap fun key => (resize key 30 0).take 30)
      = s.m_keys.flatMap fun key => resize key 30 0 := by
    congr 1
    funext key
    exact List.take_of_length_le (le_of_eq (length_resize key 30 0))
  unfold publish
  simp only []
  rw [foldl_write, publish_type_helper_eq, foldl_write, hk]
  simp only [write, take_four_toLE_eight, List.nil_append, List.append_assoc]

/-! ## The table under insertion -/

theorem add_keys_from_struct_eq (T : RecordType) (s : Cdb) :
    add_keys_from_struct T s
      = { s with m_keys := s.m_keys ++ T.fields.map FieldDesc.name } := by
  unfold add_keys_from_struct
  generalize T.fields = fs
  induction fs generalizing s with
  | nil => simp
  | cons f fs ih => simp [ih, List.append_assoc]

theorem CdbReader_eq (T : RecordType) :
    CdbReader T
      = { m_entries := [], m_keys := T.fields.map FieldDesc.name, m_entry_num := 0 } := by
  simp [CdbReader, add_keys_from_struct_eq]

theorem assign_fresh (slot : List Nat → Nat → Nat) (m : List (Nat × Record)) (k : Nat)
    (v : Record) (h : ∀ e ∈ m, e.1 ≠ k) :
    assign slot m k v
      = m.take (slot (m.map Prod.fst) k) ++ (k, v) :: m.drop (slot (m.map Prod.fst) k) := by
  have : m.any (fun e => e.1 == k) = false := by
    rw [List.any_eq_false]
    intro e he
    simpa using h e he
  simp [assign, this]

theorem length_insert_at {α : Type} (m : List α) (p : Nat) (x : α) :
    (m.take p ++ x :: m.drop p).length = m.length + 1 := by
  simp only [List.length_append, List.length_cons, List.length_take, List.length_drop]
  omega

theorem mem_insert_at {α : Type} (m : List α) (p : Nat) (x y : α) :
    y ∈ m.take p ++ x :: m.drop p ↔ y = x ∨ y ∈ m := by
  constructor
  · intro h
    rcases List.mem_append.1 h with h | h
    · exact Or.inr (List.mem_of_mem_take h)
    · rcases List.mem_cons.1 h with h | h
      · exact Or.inl h
      · exact Or.inr (List.mem_of_mem_drop h)
  · intro h
    rcases h with h | h
    · exact List.mem_append.2 (Or.inr (h ▸ List.mem_cons_self _ _))
    · rw [← List.take_append_drop p m] at h
      rcases List.mem_append.1 h with h | h
      · exact List.mem_append.2 (Or.inl h)
      · exact List.mem_append.2 (Or.inr (List.mem_cons_of_mem _ h))

/-- Below the counter every insertion meets a new key: the table grows by one
and the counter stays above all identifiers. -/
theorem addEntry_below (slot : List Nat → Nat → Nat) (s : Cdb) (t : Record) (h : s.Below) :
    (addEntry slot s t).Below
      ∧ (addEntry slot s t).m_entries.length = s.m_entries.length + 1
      ∧ (addEntry slot s t).m_entry_num = s.m_entry_num + 1
      ∧ (addEntry slot s t).m_keys = s.m_keys := by
  have hf : ∀ e ∈ s.m_entries, e.1 ≠ s.m_entry_num := fun e he => Nat.ne_of_lt (h e he)
  refine ⟨?_, ?_, rfl, rfl⟩
  · intro e he
    simp only [addEntry, assign_fresh slot _ _ _ hf] at he ⊢
    rcases (mem_insert_at _ _ _ _).1 he with he | he
    · subst he; exact Nat.lt_succ_self _
    · exact Nat.lt_succ_of_lt (h e he)
  · simp only [addEntry, assign_fresh slot _ _ _ hf]
    exact length_insert_at _ _ _

theorem blocks_short (T : RecordType) (n : Nat) (h0 : 0 < n) (h : n < T.sizeofT) :
    blocks T n = 1 := by
  unfold blocks
  apply Nat.div_eq_of_lt_le <;> omega

theorem blocks_step (T : RecordType) (n : Nat) (hR : 0 < T.sizeofT) (h : T.sizeofT ≤ n) :
    blocks T n = blocks T (n - T.sizeofT) + 1 := by
  unfold blocks
  rw [← Nat.add_div_right _ hR]
  congr 1
  omega

theorem blocks_exact (T : RecordType) (n : Nat) (hR : 0 < T.sizeofT) :
    blocks T (n * T.sizeofT) = n := by
  unfold blocks
  apply Nat.div_eq_of_lt_le
  · nlinarith
  · rw [Nat.succ_mul]; omega

theorem blocks_partial (T : RecordType) (n m : Nat) (h0 : 0 < m) (h : m < T.sizeofT) :
    blocks T (T.sizeofT * n + m) = n + 1 := by
  unfold blocks
  apply Nat.div_eq_of_lt_le
  · rw [Nat.mul_comm (n + 1)]; rw [Nat.mul_succ]; omega
  · rw [Nat.mul_comm (n + 1 + 1)]; rw [Nat.mul_succ, Nat.mul_succ]; omega

/-- The loop of `parse` terminates within `rest.length` iterations and runs
one iteration per started block of `sizeof(T)` bytes. -/
theorem parse_loop_spec (T : RecordType) (slot : List Nat → Nat → Nat) (uninit : Record)
    (hR : 0 < T.sizeofT) (fuel : Nat) (rest : Bytes) (s : Cdb)
    (hfuel : rest.length ≤ fuel) (hs : s.Below) :
    (parse_loop T slot uninit fuel rest s).Below
      ∧ (parse_loop T slot uninit fuel rest s).m_entries.length
          = s.m_entries.length + blocks T rest.length
      ∧ (parse_loop T slot uninit fuel rest s).m_entry_num
          = s.m_entry_num + blocks T rest.length
      ∧ (parse_loop T slot uninit fuel rest s).m_keys = s.m_keys := by
  induction fuel generalizing rest s with
  | zero =>
    have : rest = [] := List.length_eq_zero.1 (Nat.le_zero.1 hfuel)
    subst this
    have hb : blocks T 0 = 0 := by
      unfold blocks; apply Nat.div_eq_of_lt; omega
    simp [parse_loop, hb, hs]
  | succ fuel ih =>
    cases rest with
    | nil =>
      have hb : blocks T 0 = 0 := by
        unfold blocks; apply Nat.div_eq_of_lt; omega
      simp [parse_loop, hb, hs]
    | cons b tl =>
      obtain ⟨h1, h2, h3, h4⟩ := addEntry_below slot s
        (List.take T.sizeofT (b :: tl) ++ List.drop (List.take T.sizeofT (b :: tl)).length uninit) hs
      simp only [parse_loop]
      by_cases hshort : (List.take T.sizeofT (b :: tl)).length < T.sizeofT
      · rw [if_pos hshort]
        have hlen : (b :: tl).length < T.sizeofT := by
          rw [List.length_take] at hshort; omega
        have hb := blocks_short T (b :: tl).length (by simp) hlen
        rw [hb]
        exact ⟨h1, h2, h3, h4⟩
      · rw [if_neg hshort]
        have hlen : T.sizeofT ≤ (b :: tl).length := by
          rw [List.length_take] at hshort; omega
        have hdrop : (List.drop T.sizeofT (b :: tl)).length ≤ fuel := by
          rw [List.length_drop]; simp only [List.length_cons] at hfuel ⊢; omega
        obtain ⟨i1, i2, i3, i4⟩ := ih (List.drop T.sizeofT (b :: tl)) _ hdrop h1
        rw [List.length_drop] at i2 i3
        rw [blocks_step T _ hR hlen]
        refine ⟨i1, ?_, ?_, ?_⟩
        · rw [i2, h2]; omega
        · rw [i3, h3]; omega
        · rw [i4, h4]

/-- Number of entries after `parse` of a file holding at least the key count. -/
theorem parse_total_entries (T : RecordType) (slot : List Nat → Nat → Nat) (uninit : Record)
    (hR : 0 < T.sizeofT) (file : Bytes) (s : Cdb) (hfile : 4 ≤ file.length) (hs : s.Below) :
    total_entries (parse T slot uninit file s)
      = total_entries s
        + blocks T (file.length - (4 + ofLE (file.take 4) % 2 ^ 32 * 34 % 2 ^ 32) % 2 ^ 32) := by
  unfold parse total_entries
  rw [if_neg (by omega)]
  simp only []
  rw [(parse_loop_spec T slot uninit hR _ _ s (le_refl _) hs).2.1, List.length_drop]

/-! ## The file written by `publish` -/

theorem records_region_eq (T : RecordType) (s : Cdb)
    (h : ∀ e ∈ s.m_entries, e.2.length = T.sizeofT) :
    s.m_entries.flatMap (fun e => e.2.take T.sizeofT) = (s.m_entries.map Prod.snd).flatten := by
  generalize s.m_entries = m at h
  induction m with
  | nil => rfl
  | cons e m ih =>
    have he := h e (List.mem_cons_self e m)
    simp only [List.flatMap_cons, List.map_cons, List.flatten_cons]
    rw [ih (fun x hx => h x (List.mem_cons_of_mem e hx)),
      List.take_of_length_le (le_of_eq he)]

theorem length_names_region (keys : List Bytes) :
    (keys.flatMap (fun key => resize key 30 0)).length = keys.length * 30 :=
  length_flatMap_const _ 30 keys (fun key _ => length_resize key 30 0)

theorem length_sizes_region (fs : List FieldDesc) :
    (fs.flatMap (fun f => toLE 4 f.kind.byteSize)).length = fs.length * 4 :=
  length_flatMap_const _ 4 fs (fun _ _ => length_toLE 4 _)

theorem length_records_region (T : RecordType) (s : Cdb)
    (h : ∀ e ∈ s.m_entries, e.2.length = T.sizeofT) :
    (s.m_entries.flatMap (fun e => e.2.take T.sizeofT)).length
      = s.m_entries.length * T.sizeofT := by
  apply length_flatMap_const
  intro e he
  rw [List.length_take, h e he, Nat.min_self]

theorem length_publish (T : RecordType) (s : Cdb) (hwf : s.WF T) :
    (publish T s).length = 4 + s.m_keys.length * 34 + total_entries s * T.sizeofT := by
  have hk : T.fields.length = s.m_keys.length := by rw [hwf.1, List.length_map]
  rw [publish_eq]
  simp only [List.length_append, length_toLE, length_names_region, length_sizes_region,
    length_records_region T s hwf.2, total_entries, hk]
  omega

/-- C3.  The byte sequence written by `publish` for a store with `K` schema
fields and `N` entries has exactly `4 + K*34 + N*sizeof(T)` bytes. -/
theorem publish_length (T : RecordType) (s : Cdb) (hwf : s.WF T) :
    (publish T s).length = 4 + s.m_keys.length * 34 + total_entries s * T.sizeofT :=
  length_publish T s hwf

/-- The example store has 2 schema fields, 3 entries of 8 bytes and is written
as 4 + 2*34 + 3*8 = 96 bytes. -/
theorem publish_length_witness :
    exampleStore.WF Person
      ∧ exampleStore.m_keys.length = 2 ∧ total_entries exampleStore = 3
      ∧ Person.sizeofT = 8
      ∧ (publish Person exampleStore).length
          = 4 + exampleStore.m_keys.length * 34 + total_entries exampleStore * Person.sizeofT :=
  ⟨by decide, by decide, by decide, rfl, publish_length Person exampleStore (by decide)⟩

/-- The record region of a published file starts right after the header. -/
theorem drop_header_publish (T : RecordType) (s : Cdb) (hwf : s.WF T) :
    (publish T s).drop (4 + s.m_keys.length * 34) = (s.m_entries.map Prod.snd).flatten := by
  have hk : T.fields.length = s.m_keys.length := by rw [hwf.1, List.length_map]
  rw [publish_eq, records_region_eq T s hwf.2]
  have e : (toLE 4 s.m_keys.length ++ (s.m_keys.flatMap (fun key => resize key 30 0)
          ++ T.fields.flatMap (fun f => toLE 4 f.kind.byteSize))).length
      = 4 + s.m_keys.length * 34 := by
    simp only [List.length_append, length_toLE, length_names_region, length_sizes_region, hk]
    omega
  have hassoc : ∀ a b c d : Bytes, a ++ (b ++ (c ++ d)) = (a ++ (b ++ c)) ++ d := by
    intro a b c d; simp only [List.append_assoc]
  rw [hassoc]
  exact List.drop_left' e

theorem take_four_publish (T : RecordType) (s : Cdb) :
    (publish T s).take 4 = toLE 4 s.m_keys.length := by
  rw [publish_eq]
  exact List.take_left' (length_toLE 4 _)

/-- C1.  Loading the bytes written by `publish` into a freshly constructed
store yields exactly as many entries as the published store holds, and the
record region of the file is an exact multiple of `sizeof(T)`. -/
theorem publish_parse_total_entries (T : RecordType) (slot : List Nat → Nat → Nat)
    (uninit : Record) (s : Cdb) (hwf : s.WF T) (hR : 0 < T.sizeofT)
    (hK : 4 + s.m_keys.length * 34 < 2 ^ 32) :
    total_entries (parse T slot uninit (publish T s) (CdbReader T)) = total_entries s
      ∧ (publish T s).length - (4 + s.m_keys.length * 34) = total_entries s * T.sizeofT := by
  have hlen := length_publish T s hwf
  have hreg : (publish T s).length - (4 + s.m_keys.length * 34)
      = total_entries s * T.sizeofT := by omega
  refine ⟨?_, hreg⟩
  have hfresh : (CdbReader T).Below := by
    intro e he; simp [CdbReader_eq] at he
  rw [parse_total_entries T slot uninit hR _ _ (by omega) hfresh, take_four_publish,
    ofLE_toLE]
  have h0 : total_entries (CdbReader T) = 0 := by simp [CdbReader_eq, total_entries]
  have h1 : s.m_keys.length % 256 ^ 4 % 2 ^ 32 = s.m_keys.length := by
    norm_num; omega
  have h2 : s.m_keys.length * 34 % 2 ^ 32 = s.m_keys.length * 34 :=
    Nat.mod_eq_of_lt (by omega)
  have h3 : (4 + s.m_keys.length * 34) % 2 ^ 32 = 4 + s.m_keys.length * 34 :=
    Nat.mod_eq_of_lt hK
  rw [h0, h1, h2, h3, hreg, blocks_exact T _ hR, Nat.zero_add]

/-- The example store of 3 entries, published and loaded again, has 3 entries. -/
theorem publish_parse_total_entries_witness :
    exampleStore.WF Person ∧ 0 < Person.sizeofT
      ∧ 4 + exampleStore.m_keys.length * 34 < 2 ^ 32
      ∧ total_entries exampleStore = 3
      ∧ total_entries (parse Person slotBack (List.replicate 8 170)
          (publish Person exampleStore) (CdbReader Person)) = total_entries exampleStore :=
  ⟨by decide, by decide, by decide, by decide,
    (publish_parse_total_entries Person slotBack (List.replicate 8 170) exampleStore
      (by decide) (by decide) (by decide)).1⟩

/-- In general: a record region of `R*n + m` bytes with `0 < m < R` loads as
`n + 1` entries into a freshly constructed store. -/
theorem parse_partial_tail_total_entries (T : RecordType) (slot : List Nat → Nat → Nat)
    (uninit : Record) (hR : 0 < T.sizeofT) (file : Bytes) (K n m : Nat)
    (hK : ofLE (file.take 4) = K) (hK2 : 4 + K * 34 < 2 ^ 32)
    (hlen : file.length = 4 + K * 34 + (T.sizeofT * n + m)) (h0 : 0 < m)
    (hm : m < T.sizeofT) :
    total_entries (parse T slot uninit file (CdbReader T)) = n + 1 := by
  have hfresh : (CdbReader T).Below := by
    intro e he; simp [CdbReader_eq] at he
  have h0e : total_entries (CdbReader T) = 0 := by simp [CdbReader_eq, total_entries]
  rw [parse_total_entries T slot uninit hR _ _ (by omega) hfresh, hK, h0e,
    Nat.mod_eq_of_lt (show K < 2 ^ 32 by omega),
    Nat.mod_eq_of_lt (show K * 34 < 2 ^ 32 by omega), Nat.mod_eq_of_lt hK2, hlen,
    Nat.add_sub_cancel_left, blocks_partial T n m h0 hm, Nat.zero_add]

/-- C2.  A file whose record region is `N = 3` whole records of `R = 8` bytes
followed by `m = 3` stray bytes loads as 4 entries, not 3: the partial block is
stored as a fourth entry, completed by the indeterminate contents of the read
buffer. -/
theorem parse_truncated_tail_keeps_partial_block :
    (publish Person exampleStore ++ [9, 9, 9]).length - (4 + 2 * 34) = 8 * 3 + 3
      ∧ total_entries (parse Person slotBack (List.replicate 8 170)
          (publish Person exampleStore ++ [9, 9, 9]) (CdbReader Person)) = 3 + 1
      ∧ get_entry_by_id (parse Person slotBack (List.replicate 8 170)
          (publish Person exampleStore ++ [9, 9, 9]) (CdbReader Person)) 3
          = some [9, 9, 9, 170, 170, 170, 170, 170] := by
  decide

/-- C4.  Layout of the bytes written by `publish`: (a) the first 4 bytes are
the field count `K`, low byte first; (b) for each schema field `i`, the 30
bytes at offset `4 + 30*i` are its name cut to 30 bytes and padded with zero
bytes; (c) for each field `i`, the 4 bytes at offset `4 + 30*K + 4*i` are its
byte size, low byte first; (d) from offset `4 + 34*K` on come the images of the
records in the iteration order of the table, back to back, each of `sizeof(T)`
bytes. -/
theorem publish_layout (T : RecordType) (s : Cdb) (hwf : s.WF T) :
    slice (publish T s) 0 4 = toLE 4 T.fields.length
      ∧ ofLE (slice (publish T s) 0 4) = T.fields.length % 2 ^ 32
      ∧ (∀ i f, T.fields[i]? = some f →
          slice (publish T s) (4 + 30 * i) 30
            = f.name.take 30 ++ List.replicate (30 - f.name.length) 0)
      ∧ (∀ i f, T.fields[i]? = some f →
          slice (publish T s) (4 + 30 * T.fields.length + 4 * i) 4 = toLE 4 f.kind.byteSize
            ∧ ofLE (slice (publish T s) (4 + 30 * T.fields.length + 4 * i) 4)
                = f.kind.byteSize % 2 ^ 32)
      ∧ (publish T s).drop (4 + 34 * T.fields.length) = (s.m_entries.map Prod.snd).flatten
      ∧ (∀ r ∈ s.m_entries.map Prod.snd, r.length = T.sizeofT) := by
  have hk : s.m_keys.length = T.fields.length := by rw [hwf.1, List.length_map]
  have ha : slice (publish T s) 0 4 = toLE 4 T.fields.length := by
    rw [← hk]; simpa [slice] using take_four_publish T s
  have hc : ∀ i f, T.fields[i]? = some f →
      slice (publish T s) (4 + 30 * T.fields.length + 4 * i) 4 = toLE 4 f.kind.byteSize := by
    intro i f hf
    rw [publish_eq]
    have e : 4 + 30 * T.fields.length + 4 * i
        = (toLE 4 s.m_keys.length ++ s.m_keys.flatMap (fun key => resize key 30 0)).length
          + 4 * i := by
      simp only [List.length_append, length_toLE, length_names_region, hk]
      omega
    have := slice_flatMap_const (fun f : FieldDesc => toLE 4 f.kind.byteSize) 4 T.fields
      (fun _ _ => length_toLE 4 _) i f hf (s.m_entries.flatMap (fun e => e.2.take T.sizeofT))
    simp only [slice] at this ⊢
    rw [e, ← List.append_assoc, List.drop_append]
    exact this
  refine ⟨ha, ?_, ?_, ?_, ?_, ?_⟩
  · rw [ha, ofLE_toLE]; norm_num
  · intro i f hf
    rw [publish_eq]
    have hkey : s.m_keys[i]? = some f.name := by
      rw [hwf.1, List.getElem?_map, hf]; rfl
    have := slice_flatMap_const (fun key : Bytes => resize key 30 0) 30 s.m_keys
      (fun key _ => length_resize key 30 0) i f.name hkey
      (T.fields.flatMap (fun f => toLE 4 f.kind.byteSize)
        ++ s.m_entries.flatMap (fun e => e.2.take T.sizeofT))
    simp only [slice] at this ⊢
    have e : 4 + 30 * i = (toLE 4 s.m_keys.length).length + 30 * i := by
      rw [length_toLE]
    rw [e, List.drop_append]
    exact this
  · intro i f hf
    refine ⟨hc i f hf, ?_⟩
    rw [hc i f hf, ofLE_toLE]; norm_num
  · have := drop_header_publish T s hwf
    rw [hk] at this
    rw [← this]
    congr 1
    omega
  · intro r hr
    obtain ⟨e, he, rfl⟩ := List.mem_map.1 hr
    exact hwf.2 e he

/-- The layout of the 96 bytes written for the example store. -/
theorem publish_layout_witness :
    exampleStore.WF Person
      ∧ slice (publish Person exampleStore) 0 4 = [2, 0, 0, 0]
      ∧ slice (publish Person exampleStore) 34 30
          = [97, 103, 101] ++ List.replicate 27 0
      ∧ slice (publish Person exampleStore) 68 4 = [4, 0, 0, 0]
      ∧ (publish Person exampleStore).drop 72
          = person "a" 5 ++ person "b" 5 ++ person "a" 7
      ∧ (slice (publish Person exampleStore) 0 4 = toLE 4 Person.fields.length
        ∧ (∀ i f, Person.fields[i]? = some f →
            slice (publish Person exampleStore) (4 + 30 * i) 30
              = f.name.take 30 ++ List.replicate (30 - f.name.length) 0)
        ∧ (publish Person exampleStore).drop (4 + 34 * Person.fields.length)
            = (exampleStore.m_entries.map Prod.snd).flatten) :=
  ⟨by decide, by decide, by decide, by decide, by decide,
    (publish_layout Person exampleStore (by decide)).1,
    (publish_layout Person exampleStore (by decide)).2.2.1,
    (publish_layout Person exampleStore (by decide)).2.2.2.2.1⟩

/-! ## Queries -/

theorem contains_helper_eq (inner : Inner) (v : Probe) :
    contains_helper inner v = typeDirectedEq inner v := by
  cases inner <;> cases v <;>
    simp only [contains_helper, typeDirectedEq, Bool.beq_eq_decide_eq]

/-- The visitor of `count_matches` adds the number of matching members. -/
theorem count_visit_eq (fs : List FieldDesc) (r : Record) (key : Bytes) (v : Probe) (occ : Nat) :
    fs.foldl
        (fun occ f =>
          if f.name = key then
            if contains_helper (readField r f) v then occ + 1 else occ
          else occ)
        occ
      = occ + fs.countP (fun f => decide (f.name = key) && typeDirectedEq (readField r f) v) := by
  induction fs generalizing occ with
  | nil => simp
  | cons f fs ih =>
    rw [List.foldl_cons, ih, List.countP_cons]
    by_cases hn : f.name = key
    · by_cases hc : contains_helper (readField r f) v = true
      · have hc2 := hc; rw [contains_helper_eq] at hc2
        simp [hn, hc, hc2]; omega
      · have hc2 := hc; rw [contains_helper_eq] at hc2
        simp [hn, hc, hc2]
    · simp [hn]

/-- `count_matches` is the number of (record, member) pairs that match. -/
theorem count_matches_eq_sum (T : RecordType) (s : Cdb) (key : Bytes) (v : Probe) :
    count_matches T s key v
      = (s.m_entries.map (fun e =>
          T.fields.countP
            (fun f => decide (f.name = key) && typeDirectedEq (readField e.2 f) v))).sum := by
  unfold count_matches
  have gen : ∀ (m : List (Nat × Record)) (occ : Nat),
      m.foldl
          (fun occurrences e =>
            T.fields.foldl
              (fun occ f =>
                if f.name = key then
                  if contains_helper (readField e.2 f) v then occ + 1 else occ
                else occ)
              occurrences)
          occ
        = occ + (m.map (fun e =>
            T.fields.countP
              (fun f => decide (f.name = key) && typeDirectedEq (readField e.2 f) v))).sum := by
    intro m
    induction m with
    | nil => simp
    | cons e m ih =>
      intro occ
      rw [List.foldl_cons, count_visit_eq, ih, List.map_cons, List.sum_cons]
      omega
  rw [gen, Nat.zero_add]

/-- Among members with distinct names at most one is named `key`. -/
theorem countP_named_le_one (fs : List FieldDesc) (key : Bytes) (q : FieldDesc → Bool)
    (hn : (fs.map FieldDesc.name).Nodup) :
    fs.countP (fun f => decide (f.name = key) && q f)
      = if fs.any (fun f => decide (f.name = key) && q f) then 1 else 0 := by
  induction fs with
  | nil => simp
  | cons f fs ih =>
    rw [List.map_cons, List.nodup_cons] at hn
    rw [List.countP_cons, List.any_cons, ih hn.2]
    by_cases hf : (decide (f.name = key) && q f) = true
    · have hname : f.name = key := by
        simp only [Bool.and_eq_true, decide_eq_true_eq] at hf; exact hf.1
      have hrest : fs.any (fun g => decide (g.name = key) && q g) = false := by
        rw [List.any_eq_false]
        intro g hg hgk
        simp only [Bool.and_eq_true, decide_eq_true_eq] at hgk
        exact hn.1 (List.mem_map.2 ⟨g, hg, hgk.1.trans hname.symm⟩)
      simp [hf, hrest]
    · simp [hf]

theorem sum_indicator_eq_length_filter {α : Type} (m : List α) (p : α → Bool) :
    (m.map (fun e => if p e then 1 else 0)).sum = (m.filter p).length := by
  induction m with
  | nil => rfl
  | cons e m ih =>
    rw [List.map_cons, List.sum_cons, ih, List.filter_cons]
    by_cases h : p e = true <;> simp [h]; omega

theorem count_matches_eq_filter (T : RecordType) (s : Cdb) (k : Bytes) (v : Probe)
    (hn : (T.fields.map FieldDesc.name).Nodup) :
    count_matches T s k v = countRecords T s k v := by
  rw [count_matches_eq_sum, countRecords, ← sum_indicator_eq_length_filter]
  congr 1
  apply List.map_congr_left
  intro e _
  rw [countP_named_le_one T.fields k _ hn, fieldEquals]

/-- `count_matches` is zero exactly when no member of any record matches. -/
theorem count_matches_eq_zero_iff (T : RecordType) (s : Cdb) (k : Bytes) (v : Probe) :
    count_matches T s k v = 0 ↔ ∀ e ∈ s.m_entries, fieldEquals T e.2 k v = false := by
  rw [count_matches_eq_sum, List.sum_eq_zero_iff]
  simp only [List.mem_map, forall_exists_index, and_imp, forall_apply_eq_imp_iff₂]
  constructor
  · intro h e he
    have := h e he
    rw [List.countP_eq_zero] at this
    rw [fieldEquals, List.any_eq_false]
    exact this
  · intro h e he
    have := h e he
    rw [fieldEquals, List.any_eq_false] at this
    rw [List.countP_eq_zero]
    exact this

theorem count_matches_absent (T : RecordType) (s : Cdb) (k : Bytes) (v : Probe)
    (hk : k ∉ T.fields.map FieldDesc.name) : count_matches T s k v = 0 := by
  rw [count_matches_eq_zero_iff]
  intro e _
  rw [fieldEquals, List.any_eq_false]
  intro f hf hfk
  simp only [Bool.and_eq_true, decide_eq_true_eq] at hfk
  exact hk (List.mem_map.2 ⟨f, hf, hfk.1⟩)

/-- C5.  For a record type with pairwise distinct member names,
`count_matches(k, v)` is the number of records of the table whose member named
`k` equals `v` under type-directed equality, and it is 0 when no member is
named `k`. -/
theorem count_matches_reference (T : RecordType) (s : Cdb) (k : Bytes) (v : Probe)
    (hn : (T.fields.map FieldDesc.name).Nodup) :
    count_matches T s k v = countRecords T s k v
      ∧ (k ∉ T.fields.map FieldDesc.name → count_matches T s k v = 0) :=
  ⟨count_matches_eq_filter T s k v hn, count_matches_absent T s k v⟩

/-- The example of the specification: entries `a/5`, `b/5`, `a/7`. -/
theorem count_matches_reference_witness :
    (Person.fields.map FieldDesc.name).Nodup
      ∧ exampleStore.m_entries.map Prod.snd = [person "a" 5, person "b" 5, person "a" 7]
      ∧ count_matches Person exampleStore (ascii "age") (.scalar 5) = 2
      ∧ count_matches Person exampleStore (ascii "name") (.text (ascii "a")) = 2
      ∧ contains Person exampleStore (ascii "name") (.text (ascii "z")) = 0
      ∧ count_matches Person exampleStore (ascii "age") (.scalar 5)
          = countRecords Person exampleStore (ascii "age") (.scalar 5) :=
  ⟨by decide, by decide, by decide, by decide, by decide,
    (count_matches_reference Person exampleStore (ascii "age") (.scalar 5) (by decide)).1⟩

theorem contains_eq (T : RecordType) (s : Cdb) (k : Bytes) (v : Probe) :
    contains T s k v = if count_matches T s k v = 0 then 0 else 1 := by
  unfold contains
  by_cases h : count_matches T s k v = 0
  · simp [h]
  · have : count_matches T s k v > 0 := Nat.pos_of_ne_zero h
    simp [h, this]

theorem typeDirectedEq_of_kindDiffers (r : Record) (f : FieldDesc) (v : Probe)
    (h : kindDiffers f.kind v = true) : typeDirectedEq (readField r f) v = false := by
  unfold readField
  cases hk : f.kind <;> cases v <;> simp_all [kindDiffers, typeDirectedEq]

/-- C6.  When every member named `k` is a scalar and the probe `v` is textual,
or every member named `k` is textual and `v` is a scalar, `count_matches(k, v)`
is 0 and `contains(k, v)` is false; both are total functions, so no error
arises. -/
theorem count_matches_across_kinds (T : RecordType) (s : Cdb) (k : Bytes) (v : Probe)
    (h : ∀ f ∈ T.fields, f.name = k → kindDiffers f.kind v = true) :
    count_matches T s k v = 0 ∧ contains T s k v = 0 := by
  have h0 : count_matches T s k v = 0 := by
    rw [count_matches_eq_zero_iff]
    intro e _
    rw [fieldEquals, List.any_eq_false]
    intro f hf hfk
    simp only [Bool.and_eq_true, decide_eq_true_eq] at hfk
    rw [typeDirectedEq_of_kindDiffers e.2 f v (h f hf hfk.1)] at hfk
    exact absurd hfk.2 (by simp)
  exact ⟨h0, by rw [contains_eq, if_pos h0]⟩

/-- Probing the scalar `age` with the text `"5"` in a store whose `age` members
are all 5 counts nothing. -/
theorem count_matches_across_kinds_witness :
    (∀ e ∈ allFiveStore.m_entries, readField e.2 ⟨ascii "age", 4, .scalar 4⟩ = .scalar 5)
      ∧ count_matches Person allFiveStore (ascii "age") (.scalar 5) = 2
      ∧ count_matches Person allFiveStore (ascii "age") (.text (ascii "5")) = 0
      ∧ contains Person allFiveStore (ascii "age") (.text (ascii "5")) = 0
      ∧ count_matches Person allFiveStore (ascii "name") (.scalar 97) = 0 :=
  ⟨by decide, by decide,
    (count_matches_across_kinds Person allFiveStore (ascii "age") (.text (ascii "5"))
      (by decide)).1,
    (count_matches_across_kinds Person allFiveStore (ascii "age") (.text (ascii "5"))
      (by decide)).2,
    (count_matches_across_kinds Person allFiveStore (ascii "name") (.scalar 97)
      (by decide)).1⟩

/-- The visitor of `get_entry(key, value)` over the members of one record. -/
theorem get_visit_eq (fs : List FieldDesc) (r : Record) (key : Bytes) (v : Probe)
    (st : Bool × Option Record) :
    fs.foldl
        (fun (st : Bool × Option Record) f =>
          if f.name = key ∧ st.1 = false then
            let found := contains_helper (readField r f) v
            (found, if found then some r else st.2)
          else st)
        st
      = if st.1 = false
            ∧ fs.any (fun f => decide (f.name = key) && typeDirectedEq (readField r f) v) = true
        then (true, some r) else st := by
  induction fs generalizing st with
  | nil => simp
  | cons f fs ih =>
    rw [List.foldl_cons, ih, List.any_cons]
    obtain ⟨found, ret⟩ := st
    cases found with
    | true => simp
    | false =>
      by_cases hn : f.name = key
      · by_cases hc : typeDirectedEq (readField r f) v = true
        · simp [hn, contains_helper_eq, hc]
        · simp [hn, contains_helper_eq, hc]
      · simp [hn]

/-- The loops of `get_entry(key, value)` stop changing their state at the first
record that has a matching member. -/
theorem get_loop_eq (T : RecordType) (m : List (Nat × Record)) (key : Bytes) (v : Probe)
    (ret : Option Record) :
    m.foldl
        (fun (st : Bool × Option Record) e =>
          T.fields.foldl
            (fun (st : Bool × Option Record) f =>
              if f.name = key ∧ st.1 = false then
                let found := contains_helper (readField e.2 f) v
                (found, if found then some e.2 else st.2)
              else st)
            st)
        (false, ret)
      = match m.find? (fun e => fieldEquals T e.2 key v) with
        | some e => (true, some e.2)
        | none => (false, ret) := by
  have stuck : ∀ (m : List (Nat × Record)) (x : Option Record),
      m.foldl
          (fun (st : Bool × Option Record) e =>
            T.fields.foldl
              (fun (st : Bool × Option Record) f =>
                if f.name = key ∧ st.1 = false then
                  let found := contains_helper (readField e.2 f) v
                  (found, if found then some e.2 else st.2)
                else st)
              st)
          (true, x)
        = (true, x) := by
    intro m
    induction m with
    | nil => intro x; rfl
    | cons e m ih => intro x; rw [List.foldl_cons, get_visit_eq]; simpa using ih x
  induction m with
  | nil => rfl
  | cons e m ih =>
    rw [List.foldl_cons, get_visit_eq, List.find?_cons]
    by_cases he : fieldEquals T e.2 key v = true
    · have he2 := he
      rw [fieldEquals] at he2
      simp only [he, he2, and_self, if_true]
      exact stuck m _
    · have he2 := he
      rw [fieldEquals] at he2
      simp only [he, he2, and_false, if_false]
      exact ih

theorem get_entry_eq_find (T : RecordType) (s : Cdb) (k : Bytes) (v : Probe) :
    get_entry T s k v
      = (s.m_entries.find? (fun e => fieldEquals T e.2 k v)).map Prod.snd := by
  unfold get_entry
  simp only []
  rw [get_loop_eq]
  cases s.m_entries.find? (fun e => fieldEquals T e.2 k v) <;> simp

/-- C7.  `get_entry(k, v)` returns the first record, in the iteration order of
the table, that has a member named `k` equal to `v` under type-directed
equality; it is empty exactly when no record matches; it holds a record if and
only if `contains(k, v)` is true, which is the case if and only if
`count_matches(k, v) > 0`. -/
theorem get_entry_first_match (T : RecordType) (s : Cdb) (k : Bytes) (v : Probe) :
    get_entry T s k v = (s.m_entries.find? (fun e => fieldEquals T e.2 k v)).map Prod.snd
      ∧ (get_entry T s k v = none ↔ ∀ e ∈ s.m_entries, fieldEquals T e.2 k v = false)
      ∧ ((get_entry T s k v).isSome = true ↔ contains T s k v = 1)
      ∧ (contains T s k v = 1 ↔ count_matches T s k v > 0)
      ∧ (contains T s k v = 0 ↔ count_matches T s k v = 0) := by
  have hnone : get_entry T s k v = none ↔ ∀ e ∈ s.m_entries, fieldEquals T e.2 k v = false := by
    rw [get_entry_eq_find, Option.map_eq_none', List.find?_eq_none]
    simp
  have hc1 : contains T s k v = 1 ↔ count_matches T s k v > 0 := by
    rw [contains_eq]
    by_cases h : count_matches T s k v = 0
    · simp [h]
    · simp [h, Nat.pos_of_ne_zero h]
  have hc0 : contains T s k v = 0 ↔ count_matches T s k v = 0 := by
    rw [contains_eq]
    by_cases h : count_matches T s k v = 0 <;> simp [h]
  refine ⟨get_entry_eq_find T s k v, hnone, ?_, hc1, hc0⟩
  rw [hc1, gt_iff_lt, Nat.pos_iff_ne_zero, Ne, count_matches_eq_zero_iff, ← hnone]
  cases get_entry T s k v <;> simp

/-! ## Mutation -/

theorem foldl_fixed {α β : Type} (step : α → β → α) (fs : List β) (r : α)
    (h : ∀ f ∈ fs, step r f = r) : fs.foldl step r = r := by
  induction fs with
  | nil => rfl
  | cons f fs ih =>
    rw [List.foldl_cons, h f (List.mem_cons_self f fs)]
    exact ih (fun g hg => h g (List.mem_cons_of_mem f hg))

theorem map_fixed {α : Type} (g : α → α) (m : List α) (h : ∀ e ∈ m, g e = e) :
    m.map g = m := by
  induction m with
  | nil => rfl
  | cons e m ih =>
    rw [List.map_cons, h e (List.mem_cons_self e m),
      ih (fun x hx => h x (List.mem_cons_of_mem e hx))]

/-- The visitor of the generic `replace_value` writes only where the member
matches. -/
theorem replace_visit_no_match (key : Bytes) (value new_value : Nat) (r : Record)
    (f : FieldDesc)
    (h : (decide (f.name = key) && typeDirectedEq (readField r f) (.scalar value)) = false) :
    replace_visit key value new_value r f = r := by
  unfold replace_visit
  cases hk : f.kind with
  | text cap => rfl
  | scalar size =>
    simp only []
    rw [if_neg]
    rintro ⟨hn, hv⟩
    simp [readField, hk, typeDirectedEq, hn, hv] at h

/-- The visitor of the `const char*` overload writes only where the member
matches. -/
theorem replace_visit_cstr_no_match (key : Bytes) (value new_value : Bytes) (r : Record)
    (f : FieldDesc)
    (h : (decide (f.name = key) && typeDirectedEq (readField r f) (.text value)) = false) :
    replace_visit_cstr key value new_value r f = r := by
  unfold replace_visit_cstr
  cases hk : f.kind with
  | scalar size => rfl
  | text cap =>
    simp only []
    rw [if_neg]
    rintro ⟨hn, hv⟩
    simp [readField, hk, typeDirectedEq, hn, hv] at h

theorem replace_value_call_no_match (T : RecordType) (s : Cdb) (k : Bytes) (args : ValuePair)
    (h : count_matches T s k args.probe = 0) : replace_value_call T k args s = s := by
  rw [count_matches_eq_zero_iff] at h
  have hf : ∀ e ∈ s.m_entries, ∀ f ∈ T.fields,
      (decide (f.name = k) && typeDirectedEq (readField e.2 f) args.probe) = false := by
    intro e he
    have := h e he
    rw [fieldEquals, List.any_eq_false] at this
    intro f hf
    simpa using this f hf
  cases args with
  | scalar value new_value =>
    simp only [replace_value_call, replace_value]
    rw [map_fixed _ _ (fun e he => ?_)]
    rw [foldl_fixed _ _ _ (fun f hfm => replace_visit_no_match k value new_value e.2 f
      (hf e he f hfm))]
  | text value new_value =>
    simp only [replace_value_call, replace_value_cstr]
    rw [map_fixed _ _ (fun e he => ?_)]
    rw [foldl_fixed _ _ _ (fun f hfm => replace_visit_cstr_no_match k value new_value e.2 f
      (hf e he f hfm))]

/-- C10.  When no record has a member named `k` equal to `old` under
type-directed equality (`count_matches(k, old)` is 0, which covers an unknown
`k` and a member of the other kind), `replace_value(k, old, new)` leaves the
store, and so the Entry Table, exactly as it was. -/
theorem replace_value_no_match (T : RecordType) (s : Cdb) (k : Bytes) (args : ValuePair)
    (h : count_matches T s k args.probe = 0) :
    replace_value_call T k args s = s
      ∧ (replace_value_call T k args s).m_entries = s.m_entries :=
  ⟨replace_value_call_no_match T s k args h,
    by rw [replace_value_call_no_match T s k args h]⟩

/-- No `name` is `"z"`, no member is named `"city"`, and `age` is not textual:
the three calls change nothing. -/
theorem replace_value_no_match_witness :
    count_matches Person exampleStore (ascii "name") (ValuePair.text (ascii "z") (ascii "c")).probe
        = 0
      ∧ replace_value_call Person (ascii "name") (.text (ascii "z") (ascii "c")) exampleStore
          = exampleStore
      ∧ replace_value_call Person (ascii "city") (.scalar 5 6) exampleStore = exampleStore
      ∧ replace_value_call Person (ascii "age") (.text (ascii "5") (ascii "6")) exampleStore
          = exampleStore :=
  ⟨by decide,
    (replace_value_no_match Person exampleStore (ascii "name")
      (.text (ascii "z") (ascii "c")) (by decide)).1,
    (replace_value_no_match Person exampleStore (ascii "city") (.scalar 5 6) (by decide)).1,
    (replace_value_no_match Person exampleStore (ascii "age")
      (.text (ascii "5") (ascii "6")) (by decide)).1⟩

/-! ### Writing into an object image -/

theorem getElem?_slice (r : Bytes) (off len i : Nat) :
    (slice r off len)[i]? = if i < len then r[off + i]? else none := by
  unfold slice
  rw [List.getElem?_take, List.getElem?_drop]

theorem length_slice (r : Bytes) (off len : Nat) (h : off + len ≤ r.length) :
    (slice r off len).length = len := by
  unfold slice
  rw [List.length_take, List.length_drop]
  omega

theorem length_overwrite (r : Bytes) (off : Nat) (bs : Bytes) (h : off + bs.length ≤ r.length) :
    (overwrite r off bs).length = r.length := by
  unfold overwrite
  simp only [List.length_append, List.length_take, List.length_drop]
  omega

/-- Bytes of the image outside the written range keep their value. -/
theorem getElem?_overwrite_outside (r : Bytes) (off : Nat) (bs : Bytes)
    (h : off + bs.length ≤ r.length) (j : Nat) (hj : j < off ∨ off + bs.length ≤ j) :
    (overwrite r off bs)[j]? = r[j]? := by
  unfold overwrite
  have hto : (r.take off).length = off := by rw [List.length_take]; omega
  rcases hj with hj | hj
  · rw [List.append_assoc, List.getElem?_append_left (by omega), List.getElem?_take,
      if_pos hj]
  · rw [List.getElem?_append_right (by rw [List.length_append, hto]; exact hj),
      List.getElem?_drop, List.length_append, hto]
    congr 1
    omega

/-- Bytes of the image inside the written range are the written ones. -/
theorem getElem?_overwrite_inside (r : Bytes) (off : Nat) (bs : Bytes)
    (h : off + bs.length ≤ r.length) (i : Nat) (hi : i < bs.length) :
    (overwrite r off bs)[off + i]? = bs[i]? := by
  unfold overwrite
  have hto : (r.take off).length = off := by rw [List.length_take]; omega
  rw [List.append_assoc, List.getElem?_append_right (by omega), hto,
    List.getElem?_append_left (by omega)]
  congr 1
  omega

theorem slice_overwrite_same (r : Bytes) (off : Nat) (bs : Bytes)
    (h : off + bs.length ≤ r.length) : slice (overwrite r off bs) off bs.length = bs := by
  apply List.ext_getElem?
  intro i
  rw [getElem?_slice]
  by_cases hi : i < bs.length
  · rw [if_pos hi, getElem?_overwrite_inside r off bs h i hi]
  · rw [if_neg hi, List.getElem?_eq_none (by omega)]

theorem slice_overwrite_disjoint (r : Bytes) (off : Nat) (bs : Bytes)
    (h : off + bs.length ≤ r.length) (off' len' : Nat)
    (hd : off' + len' ≤ off ∨ off + bs.length ≤ off') :
    slice (overwrite r off bs) off' len' = slice r off' len' := by
  apply List.ext_getElem?
  intro i
  rw [getElem?_slice, getElem?_slice]
  by_cases hi : i < len'
  · rw [if_pos hi, if_pos hi]
    exact getElem?_overwrite_outside r off bs h _ (by omega)
  · rw [if_neg hi, if_neg hi]

/-! ### C strings -/

theorem cstr_no_zero (p : Bytes) : ∀ b ∈ cstr p, b ≠ 0 := by
  intro b hb
  have := List.mem_takeWhile_imp hb
  simpa using this

theorem cstr_terminated (pre tail : Bytes) (h : ∀ b ∈ pre, b ≠ 0) :
    cstr (pre ++ 0 :: tail) = pre := by
  unfold cstr
  induction pre with
  | nil => simp
  | cons b pre ih =>
    have hb : b ≠ 0 := h b (List.mem_cons_self b pre)
    rw [List.cons_append, List.takeWhile_cons_of_pos (by simpa using hb),
      ih (fun x hx => h x (List.mem_cons_of_mem b hx))]

theorem take_cstr (p : Bytes) (n : Nat) (h : n ≤ (cstr p).length) :
    (cstr p).take n = p.take n := by
  have e : p = cstr p ++ p.dropWhile (fun b => b != 0) := by
    unfold cstr; exact (List.takeWhile_append_dropWhile _ p).symm
  conv_rhs => rw [e]
  rw [List.take_append_of_le_length h]

/-- The buffer left by `strncpy_s(dest, cap, src, cap - 1)` on a `char[cap]`. -/
theorem strncpy_s_eq (dest src : Bytes) (cap : Nat) (hcap : 1 ≤ cap) (hd : dest.length = cap) :
    strncpy_s dest cap src (cap - 1)
      = (cstr src).take (cap - 1) ++ 0 :: dest.drop (min (cap - 1) (cstr src).length + 1) := by
  unfold strncpy_s overwrite
  simp only []
  rw [if_pos (by omega)]
  have hl : ((cstr src).take (min (cap - 1) (cstr src).length)).length
      = min (cap - 1) (cstr src).length := by
    rw [List.length_take]; omega
  have ht : (cstr src).take (min (cap - 1) (cstr src).length) = (cstr src).take (cap - 1) := by
    rcases Nat.le_total (cap - 1) (cstr src).length with hle | hle
    · rw [Nat.min_eq_left hle]
    · rw [Nat.min_eq_right hle, List.take_of_length_le (le_refl _),
        List.take_of_length_le hle]
  simp only [List.take_zero, List.nil_append, Nat.zero_add, List.length_append, hl,
    List.length_singleton, List.append_assoc, List.singleton_append]
  rw [ht]

theorem length_strncpy_s (dest src : Bytes) (cap : Nat) (hd : dest.length = cap) :
    (strncpy_s dest cap src (cap - 1)).length = cap := by
  unfold strncpy_s
  simp only []
  by_cases h : min (cap - 1) (cstr src).length < cap
  · rw [if_pos h, length_overwrite]
    · exact hd
    · simp only [List.length_append, List.length_take, List.length_singleton]
      omega
  · rw [if_neg h, hd]

theorem cstr_strncpy_s (dest src : Bytes) (cap : Nat) (hd : dest.length = cap) :
    cstr (strncpy_s dest cap src (cap - 1)) = (cstr src).take (cap - 1) := by
  rcases Nat.eq_zero_or_pos cap with h0 | hpos
  · subst h0
    have : dest = [] := List.length_eq_zero.1 hd
    subst this
    simp [strncpy_s, cstr, overwrite]
  · rw [strncpy_s_eq dest src cap hpos hd]
    exact cstr_terminated _ _ (fun b hb => cstr_no_zero src b (List.mem_of_mem_take hb))

/-! ### One record under the visitors -/

/-- With distinct member names the visitor acts at the one member named `key`. -/
theorem foldl_visit_named (step : Record → FieldDesc → Record) (key : Bytes)
    (hstep : ∀ r f, f.name ≠ key → step r f = r) (fs : List FieldDesc)
    (hn : (fs.map FieldDesc.name).Nodup) (f : FieldDesc) (hf : f ∈ fs) (hk : f.name = key)
    (r : Record) : fs.foldl step r = step r f := by
  induction fs with
  | nil => simp at hf
  | cons g fs ih =>
    rw [List.map_cons, List.nodup_cons] at hn
    rw [List.foldl_cons]
    rcases List.mem_cons.1 hf with hfg | hfs
    · subst hfg
      apply foldl_fixed
      intro g hg
      apply hstep
      intro hgk
      exact hn.1 (List.mem_map.2 ⟨g, hg, hgk.trans hk.symm⟩)
    · have hg : g.name ≠ key := by
        intro hgk
        exact hn.1 (List.mem_map.2 ⟨f, hfs, hk.trans hgk.symm⟩)
      rw [hstep r g hg]
      exact ih hn.2 hfs

theorem replace_visit_other_name (key : Bytes) (value new_value : Nat) (r : Record)
    (f : FieldDesc) (h : f.name ≠ key) : replace_visit key value new_value r f = r :=
  replace_visit_no_match key value new_value r f (by simp [h])

theorem replace_visit_cstr_other_name (key : Bytes) (value new_value : Bytes) (r : Record)
    (f : FieldDesc) (h : f.name ≠ key) : replace_visit_cstr key value new_value r f = r :=
  replace_visit_cstr_no_match key value new_value r f (by simp [h])

/-- Writing the bytes of one member leaves every other member as it was. -/
theorem readField_overwrite_other (T : RecordType) (hT : T.WF) (r : Record)
    (hr : r.length = T.sizeofT) (f0 : FieldDesc) (hf0 : f0 ∈ T.fields) (bs : Bytes)
    (hbs : bs.length = f0.kind.byteSize) (f : FieldDesc) (hf : f ∈ T.fields) (hne : f ≠ f0) :
    readField (overwrite r f0.offset bs) f = readField r f := by
  have hsym : Symmetric FieldDesc.Disjoint := fun a b h => Or.symm h
  have hdis := List.Pairwise.forall hsym hT.2.2 hf hf0 hne
  have hin := hT.2.1 f0 hf0
  have key : ∀ len, len = f.kind.byteSize →
      slice (overwrite r f0.offset bs) f.offset len = slice r f.offset len := by
    intro len hlen
    apply slice_overwrite_disjoint
    · omega
    · unfold FieldDesc.Disjoint at hdis; omega
  unfold readField
  cases hk : f.kind with
  | scalar size => simp only []; rw [key size (by rw [hk]; rfl)]
  | text cap => simp only []; rw [key cap (by rw [hk]; rfl)]

/-- Entry `i` of the table after `replace_value_call`. -/
theorem getElem?_replace_value_call (T : RecordType) (s : Cdb) (k : Bytes) (args : ValuePair)
    (i : Nat) (e : Nat × Record) (he : s.m_entries[i]? = some e) :
    (replace_value_call T k args s).m_entries[i]?
      = some (e.1, match args with
          | .scalar value new_value => T.fields.foldl (replace_visit k value new_value) e.2
          | .text value new_value => T.fields.foldl (replace_visit_cstr k value new_value) e.2) := by
  cases args <;>
    simp [replace_value_call, replace_value, replace_value_cstr, List.getElem?_map, he]

/-- The record left by the `const char*` overload when member `f` matches. -/
theorem foldl_replace_visit_cstr_match (T : RecordType) (hT : T.WF) (k old new : Bytes)
    (r : Record) (f : FieldDesc) (cap : Nat) (hf : f ∈ T.fields) (hk : f.name = k)
    (hkind : f.kind = .text cap) (hm : cstr (slice r f.offset cap) = cstr old) :
    T.fields.foldl (replace_visit_cstr k old new) r
      = overwrite r f.offset (strncpy_s (slice r f.offset cap) cap new (cap - 1)) := by
  rw [foldl_visit_named _ k (fun r f h => replace_visit_cstr_other_name k old new r f h)
    T.fields hT.1 f hf hk]
  unfold replace_visit_cstr
  rw [hkind]
  simp only []
  rw [if_pos ⟨hk, hm⟩]

/-- The record left by the generic overload when member `f` matches. -/
theorem foldl_replace_visit_match (T : RecordType) (hT : T.WF) (k : Bytes) (old new : Nat)
    (r : Record) (f : FieldDesc) (size : Nat) (hf : f ∈ T.fields) (hk : f.name = k)
    (hkind : f.kind = .scalar size) (hm : ofLE (slice r f.offset size) = old) :
    T.fields.foldl (replace_visit k old new) r = overwrite r f.offset (toLE size new) := by
  rw [foldl_visit_named _ k (fun r f h => replace_visit_other_name k old new r f h)
    T.fields hT.1 f hf hk]
  unfold replace_visit
  rw [hkind]
  simp only []
  rw [if_pos ⟨hk, hm⟩]

/-- C9.  When `replace_value` overwrites a text member of capacity `C >= 1`
with a `new_value` of length `L`, the buffer afterwards holds the first
`min(L, C-1)` bytes of `new_value` followed by a zero byte inside its `C`
bytes; the stored string is `new_value` cut to at most `C-1` bytes; and every
byte of the record outside the buffer keeps its value. -/
theorem replace_value_cstr_bounded (T : RecordType) (s : Cdb) (k old new : Bytes)
    (hT : T.WF) (hs : s.WF T) (i : Nat) (e : Nat × Record) (f : FieldDesc) (cap : Nat)
    (he : s.m_entries[i]? = some e) (hf : f ∈ T.fields) (hk : f.name = k)
    (hkind : f.kind = .text cap) (hcap : 1 ≤ cap)
    (hm : cstr (slice e.2 f.offset cap) = cstr old) :
    ∃ r', (replace_value_cstr T k old new s).m_entries[i]? = some (e.1, r')
      ∧ r'.length = e.2.length
      ∧ (slice r' f.offset cap).length = cap
      ∧ (slice r' f.offset cap).take (min (cstr new).length (cap - 1))
          = new.take (min (cstr new).length (cap - 1))
      ∧ (slice r' f.offset cap)[min (cstr new).length (cap - 1)]? = some 0
      ∧ min (cstr new).length (cap - 1) < cap
      ∧ cstr (slice r' f.offset cap) = (cstr new).take (cap - 1)
      ∧ (cstr (slice r' f.offset cap)).length ≤ cap - 1
      ∧ ∀ j, j < f.offset ∨ f.offset + cap ≤ j → r'[j]? = e.2[j]? := by
  have hlen : e.2.length = T.sizeofT := hs.2 e (List.getElem?_mem he)
  have hin : f.offset + cap ≤ e.2.length := by
    have := hT.2.1 f hf
    rw [hkind] at this
    simp only [FieldKind.byteSize] at this
    omega
  have hsl : (slice e.2 f.offset cap).length = cap := length_slice _ _ _ hin
  have hnl : (strncpy_s (slice e.2 f.offset cap) cap new (cap - 1)).length = cap :=
    length_strncpy_s _ _ _ hsl
  have hin2 : f.offset + (strncpy_s (slice e.2 f.offset cap) cap new (cap - 1)).length
      ≤ e.2.length := by rw [hnl]; exact hin
  have hsame : slice (overwrite e.2 f.offset
      (strncpy_s (slice e.2 f.offset cap) cap new (cap - 1))) f.offset cap
      = strncpy_s (slice e.2 f.offset cap) cap new (cap - 1) := by
    have := slice_overwrite_same e.2 f.offset _ hin2
    rw [hnl] at this
    exact this
  have hpre : (cstr new).take (cap - 1) = new.take (min (cstr new).length (cap - 1)) := by
    rcases Nat.le_total (cstr new).length (cap - 1) with hle | hle
    · rw [Nat.min_eq_left hle, List.take_of_length_le hle, ← take_cstr new _ (le_refl _),
        List.take_of_length_le (le_refl _)]
    · rw [Nat.min_eq_right hle, take_cstr new _ hle]
  have hprelen : (new.take (min (cstr new).length (cap - 1))).length
      = min (cstr new).length (cap - 1) := by
    rw [← hpre, List.length_take]; omega
  refine ⟨overwrite e.2 f.offset (strncpy_s (slice e.2 f.offset cap) cap new (cap - 1)),
    ?_, length_overwrite _ _ _ hin2, ?_, ?_, ?_, by omega, ?_, ?_, ?_⟩
  · have := getElem?_replace_value_call T s k (.text old new) i e he
    simp only [replace_value_call] at this
    rw [this, foldl_replace_visit_cstr_match T hT k old new e.2 f cap hf hk hkind hm]
  · rw [hsame, hnl]
  · rw [hsame, strncpy_s_eq _ _ _ hcap hsl, hpre]
    exact List.take_left' hprelen
  · rw [hsame, strncpy_s_eq _ _ _ hcap hsl, hpre,
      List.getElem?_append_right (by rw [hprelen]), hprelen, Nat.sub_self]
    exact List.getElem?_cons_zero
  · rw [hsame]
    exact cstr_strncpy_s _ _ _ hsl
  · rw [hsame, cstr_strncpy_s _ _ _ hsl, List.length_take]
    omega
  · intro j hj
    apply getElem?_overwrite_outside _ _ _ hin2
    rw [hnl]
    exact hj

/-- Writing the 6-byte string `"cdefgh"` into the `char[4]` member `name` of
the first example record stores `"cde"` and a terminator and leaves `age` alone. -/
theorem replace_value_cstr_bounded_witness :
    Person.WF ∧ exampleStore.WF Person
      ∧ (replace_value_cstr Person (ascii "name") (ascii "a") (ascii "cdefgh")
          exampleStore).m_entries[0]?
          = some (0, [99, 100, 101, 0, 5, 0, 0, 0])
      ∧ ∃ r', (replace_value_cstr Person (ascii "name") (ascii "a") (ascii "cdefgh")
            exampleStore).m_entries[0]? = some ((0, person "a" 5).1, r')
          ∧ r'.length = (0, person "a" 5).2.length
          ∧ (slice r' 0 4).length = 4
          ∧ (slice r' 0 4).take (min (cstr (ascii "cdefgh")).length (4 - 1))
              = (ascii "cdefgh").take (min (cstr (ascii "cdefgh")).length (4 - 1))
          ∧ (slice r' 0 4)[min (cstr (ascii "cdefgh")).length (4 - 1)]? = some 0
          ∧ min (cstr (ascii "cdefgh")).length (4 - 1) < 4
          ∧ cstr (slice r' 0 4) = (cstr (ascii "cdefgh")).take (4 - 1)
          ∧ (cstr (slice r' 0 4)).length ≤ 4 - 1
          ∧ ∀ j, j < 0 ∨ 0 + 4 ≤ j → r'[j]? = (0, person "a" 5).2[j]? :=
  ⟨by decide, by decide, by decide,
    replace_value_cstr_bounded Person exampleStore (ascii "name") (ascii "a") (ascii "cdefgh")
      (by decide) (by decide) 0 (0, person "a" 5) ⟨ascii "name", 0, .text 4⟩ 4
      (by decide) (by decide) (by decide) rfl (by decide) (by decide)⟩

theorem typeDirectedEq_scalar (r : Record) (f : FieldDesc) (old : Nat)
    (h : typeDirectedEq (readField r f) (.scalar old) = true) :
    ∃ size, f.kind = .scalar size ∧ ofLE (slice r f.offset size) = old := by
  unfold readField at h
  cases hk : f.kind with
  | scalar size =>
    rw [hk] at h
    exact ⟨size, rfl, by simpa [typeDirectedEq] using h⟩
  | text cap =>
    rw [hk] at h
    simp [typeDirectedEq] at h

theorem typeDirectedEq_text (r : Record) (f : FieldDesc) (old : Bytes)
    (h : typeDirectedEq (readField r f) (.text old) = true) :
    ∃ cap, f.kind = .text cap ∧ cstr (slice r f.offset cap) = cstr old := by
  unfold readField at h
  cases hk : f.kind with
  | scalar size =>
    rw [hk] at h
    simp [typeDirectedEq] at h
  | text cap =>
    rw [hk] at h
    exact ⟨cap, rfl, by simpa [typeDirectedEq] using h⟩

/-- One record under `replace_value_call`: the result `r'` of the visitor loop
satisfies the reference definition member by member. -/
theorem record_after_replace (T : RecordType) (hT : T.WF) (k : Bytes) (args : ValuePair)
    (r : Record) (hr : r.length = T.sizeofT) (r' : Record)
    (hr' : r' = match args with
      | .scalar value new_value => T.fields.foldl (replace_visit k value new_value) r
      | .text value new_value => T.fields.foldl (replace_visit_cstr k value new_value) r) :
    r'.length = r.length
      ∧ (∀ f ∈ T.fields, fieldAfterReplace f k args (readField r f) (readField r' f))
      ∧ (fieldEquals T r k args.probe = false → r' = r) := by
  by_cases hex : ∃ f0 ∈ T.fields, f0.name = k ∧ typeDirectedEq (readField r f0) args.probe = true
  · obtain ⟨f0, hf0, hk0, hm0⟩ := hex
    have hin := hT.2.1 f0 hf0
    have huniq : ∀ f ∈ T.fields, f.name = k → f = f0 := fun f hf hfk =>
      List.inj_on_of_nodup_map hT.1 hf hf0 (hfk.trans hk0.symm)
    have hmatch : fieldEquals T r k args.probe = true := by
      rw [fieldEquals, List.any_eq_true]
      exact ⟨f0, hf0, by simp [hk0, hm0]⟩
    -- the bytes written at `f0`
    have main : ∀ bs : Bytes, bs.length = f0.kind.byteSize → r' = overwrite r f0.offset bs →
        fieldAfterReplace f0 k args (readField r f0)
          (match f0.kind with
            | .scalar _ => .scalar (ofLE bs)
            | .text _ => .text bs) →
        r'.length = r.length
          ∧ (∀ f ∈ T.fields, fieldAfterReplace f k args (readField r f) (readField r' f))
          ∧ (fieldEquals T r k args.probe = false → r' = r) := by
      intro bs hbs hov hf0after
      have hin2 : f0.offset + bs.length ≤ r.length := by omega
      refine ⟨by rw [hov]; exact length_overwrite _ _ _ hin2, ?_, ?_⟩
      · intro f hf
        by_cases hff : f = f0
        · subst hff
          have hread : readField r' f
              = (match f.kind with
                  | .scalar _ => .scalar (ofLE bs)
                  | .text _ => .text bs) := by
            have hs := slice_overwrite_same r f.offset bs hin2
            rw [hbs] at hs
            rw [hov]
            unfold readField
            cases hkk : f.kind with
            | scalar size =>
              rw [hkk] at hs; simp only [FieldKind.byteSize] at hs; simp only []; rw [hs]
            | text cap =>
              rw [hkk] at hs; simp only [FieldKind.byteSize] at hs; simp only []; rw [hs]
          rw [hread]
          exact hf0after
        · have hname : ¬ (f.name = k ∧ typeDirectedEq (readField r f) args.probe = true) :=
            fun h => hff (huniq f hf h.1)
          unfold fieldAfterReplace
          rw [if_neg hname, hov]
          exact readField_overwrite_other T hT r hr f0 hf0 bs hbs f hf hff
      · intro hno
        rw [hmatch] at hno
        exact absurd hno (by simp)
    cases args with
    | scalar value new_value =>
      obtain ⟨size, hkind, hval⟩ := typeDirectedEq_scalar r f0 value hm0
      have hov := foldl_replace_visit_match T hT k value new_value r f0 size hf0 hk0 hkind hval
      simp only [] at hr'
      rw [hov] at hr'
      apply main (toLE size new_value) (by rw [length_toLE, hkind]; rfl) hr'
      unfold fieldAfterReplace
      rw [if_pos ⟨hk0, hm0⟩, hkind]
      simp only [FieldKind.byteSize, ofLE_toLE]
    | text value new_value =>
      obtain ⟨cap, hkind, hval⟩ := typeDirectedEq_text r f0 value hm0
      have hov := foldl_replace_visit_cstr_match T hT k value new_value r f0 cap hf0 hk0
        hkind hval
      simp only [] at hr'
      rw [hov] at hr'
      have hsl : (slice r f0.offset cap).length = cap := by
        apply length_slice
        rw [hkind] at hin
        simp only [FieldKind.byteSize] at hin
        omega
      apply main _ (by rw [length_strncpy_s _ _ _ hsl, hkind]; rfl) hr'
      unfold fieldAfterReplace
      rw [if_pos ⟨hk0, hm0⟩, hkind]
      simp only [FieldKind.byteSize]
      exact ⟨_, rfl, length_strncpy_s _ _ _ hsl, cstr_strncpy_s _ _ _ hsl⟩
  · have hno : ∀ f ∈ T.fields,
        (decide (f.name = k) && typeDirectedEq (readField r f) args.probe) = false := by
      intro f hf
      by_contra hc
      simp only [Bool.not_eq_false, Bool.and_eq_true, decide_eq_true_eq] at hc
      exact hex ⟨f, hf, hc⟩
    have hsame : r' = r := by
      rw [hr']
      cases args with
      | scalar value new_value =>
        exact foldl_fixed _ _ _ (fun f hf => replace_visit_no_match k value new_value r f
          (hno f hf))
      | text value new_value =>
        exact foldl_fixed _ _ _ (fun f hf => replace_visit_cstr_no_match k value new_value r f
          (hno f hf))
    refine ⟨by rw [hsame], ?_, fun _ => hsame⟩
    intro f hf
    unfold fieldAfterReplace
    rw [if_neg (fun h => hex ⟨f, hf, h⟩), hsame]

theorem replace_value_call_frame (T : RecordType) (s : Cdb) (k : Bytes) (args : ValuePair) :
    (replace_value_call T k args s).m_entries.map Prod.fst = s.m_entries.map Prod.fst
      ∧ total_entries (replace_value_call T k args s) = total_entries s
      ∧ (replace_value_call T k args s).m_entry_num = s.m_entry_num
      ∧ (replace_value_call T k args s).m_keys = s.m_keys := by
  cases args <;>
    simp [replace_value_call, replace_value, replace_value_cstr, total_entries, List.map_map,
      Function.comp_def]

/-- Where the new value is representable in the member, the member is set to
exactly the new value. -/
theorem fieldSetToNew_of_representable (r : Record) (f : FieldDesc) (k : Bytes)
    (args : ValuePair) (after : Inner) (hrep : representable f.kind args = true)
    (h : fieldAfterReplace f k args (readField r f) after) :
    fieldSetToNew f k args (readField r f) after := by
  unfold fieldAfterReplace at h
  unfold fieldSetToNew
  by_cases hm : f.name = k ∧ typeDirectedEq (readField r f) args.probe = true
  · rw [if_pos hm] at h ⊢
    cases args with
    | scalar v nv =>
      obtain ⟨size, hsz, _⟩ := typeDirectedEq_scalar r f v hm.2
      rw [hsz] at hrep
      simp only [representable, decide_eq_true_eq] at hrep
      simp only [hsz, FieldKind.byteSize] at h
      rw [h, Nat.mod_eq_of_lt hrep]
    | text v nv => exact h
  · rw [if_neg hm] at h ⊢
    exact h

/-- The claim of C8 fails for a scalar that the member cannot hold:
`replace_value("age", 5, 2^32 + 6)` on the example store leaves 6, not
`2^32 + 6`, in the 4-byte member `age` of the records that held 5. -/
theorem replace_value_sets_new_counterexample :
    readField (person "a" 5) ageMember = .scalar 5
      ∧ (replace_value_call Person (ascii "age") (.scalar 5 (2 ^ 32 + 6))
          exampleStore).m_entries
          = [(0, person "a" 6), (1, person "b" 6), (2, person "a" 7)]
      ∧ readField (person "a" 6) ageMember = .scalar 6
      ∧ readField (person "a" 6) ageMember ≠ .scalar (2 ^ 32 + 6)
      ∧ ¬ fieldSetToNew ageMember (ascii "age") (.scalar 5 (2 ^ 32 + 6))
          (readField (person "a" 5) ageMember) (readField (person "a" 6) ageMember) := by
  refine ⟨by decide, by decide, by decide, by decide, ?_⟩
  intro h
  unfold fieldSetToNew at h
  rw [if_pos ⟨rfl, by decide⟩] at h
  exact absurd h (by decide)

/-- C8, amended.  After `replace_value(k, old, new)` on a store of a well-formed
record type: the identifiers, their order, the number of entries, the counter
and the keys are unchanged; in every record each member named `k` that equalled
`old` holds `new` converted to the member (a scalar: `new` modulo
`256 ^ byteSize`, which is `new` itself whenever `new` is representable in the
member; a text: `new` cut to the capacity of the buffer less the terminator);
every other member of every record is unchanged; and a record with no member
named `k` equal to `old` is unchanged byte for byte. -/
theorem replace_value_reference (T : RecordType) (s : Cdb) (k : Bytes) (args : ValuePair)
    (hT : T.WF) (hs : s.WF T) :
    (replace_value_call T k args s).m_entries.map Prod.fst = s.m_entries.map Prod.fst
      ∧ total_entries (replace_value_call T k args s) = total_entries s
      ∧ (replace_value_call T k args s).m_entry_num = s.m_entry_num
      ∧ (replace_value_call T k args s).m_keys = s.m_keys
      ∧ ∀ (i : Nat) (e : Nat × Record), s.m_entries[i]? = some e →
          ∃ r', (replace_value_call T k args s).m_entries[i]? = some (e.1, r')
            ∧ r'.length = e.2.length
            ∧ (∀ f ∈ T.fields, fieldAfterReplace f k args (readField e.2 f) (readField r' f))
            ∧ (∀ f ∈ T.fields, representable f.kind args = true →
                fieldSetToNew f k args (readField e.2 f) (readField r' f))
            ∧ (fieldEquals T e.2 k args.probe = false → r' = e.2) := by
  obtain ⟨h1, h2, h3, h4⟩ := replace_value_call_frame T s k args
  refine ⟨h1, h2, h3, h4, ?_⟩
  intro i e he
  obtain ⟨r1, r2, r3⟩ :=
    record_after_replace T hT k args e.2 (hs.2 e (List.getElem?_mem he)) _ rfl
  exact ⟨_, getElem?_replace_value_call T s k args i e he, r1, r2,
    fun f hf hrep => fieldSetToNew_of_representable e.2 f k args _ hrep (r2 f hf), r3⟩

/-- The example of the specification: `replace_value("name", "a", "c")` on
`a/5`, `b/5`, `a/7` gives `c/5`, `b/5`, `c/7`; and `replace_value("age", 5, 6)`
gives `a/6`, `b/6`, `a/7`. -/
theorem replace_value_reference_witness :
    Person.WF ∧ exampleStore.WF Person
      ∧ exampleStore.m_entries = [(0, person "a" 5), (1, person "b" 5), (2, person "a" 7)]
      ∧ (replace_value_call Person (ascii "name") (.text (ascii "a") (ascii "c"))
          exampleStore).m_entries
          = [(0, person "c" 5), (1, person "b" 5), (2, person "c" 7)]
      ∧ (replace_value_call Person (ascii "age") (.scalar 5 6) exampleStore).m_entries
          = [(0, person "a" 6), (1, person "b" 6), (2, person "a" 7)]
      ∧ total_entries (replace_value_call Person (ascii "name") (.text (ascii "a") (ascii "c"))
          exampleStore) = total_entries exampleStore :=
  ⟨by decide, by decide, by decide, by decide, by decide,
    (replace_value_reference Person exampleStore (ascii "name")
      (.text (ascii "a") (ascii "c")) (by decide) (by decide)).2.1⟩

/-! ## Lookup by identifier -/

theorem get_entry_by_id_eq_find (s : Cdb) (id : Nat) :
    get_entry_by_id s id = (s.m_entries.find? (fun e => e.1 == id)).map Prod.snd := by
  unfold get_entry_by_id
  by_cases h : s.m_entries.any (fun e => e.1 == id) = true
  · rw [if_pos h]
  · rw [if_neg h]
    have hn : s.m_entries.find? (fun e => e.1 == id) = none := by
      rw [List.find?_eq_none]
      intro e he hk
      exact h (List.any_eq_true.2 ⟨e, he, hk⟩)
    rw [hn]; rfl

theorem find?_key_none (m : List (Nat × Record)) (id : Nat) (h : ∀ e ∈ m, e.1 ≠ id) :
    m.find? (fun e => e.1 == id) = none := by
  rw [List.find?_eq_none]
  intro e he hk
  exact h e he (by simpa using hk)

theorem find?_key_insert_at (m : List (Nat × Record)) (p k : Nat) (v : Record) (id : Nat)
    (hfresh : ∀ e ∈ m, e.1 ≠ k) :
    (m.take p ++ (k, v) :: m.drop p).find? (fun e => e.1 == id)
      = if id = k then some (k, v) else m.find? (fun e => e.1 == id) := by
  rw [List.find?_append, List.find?_cons]
  by_cases hid : id = k
  · subst hid
    rw [if_pos rfl, find?_key_none _ _ (fun e he => hfresh e (List.mem_of_mem_take he))]
    simp
  · rw [if_neg hid]
    have hk : ((k, v).1 == id) = false := by simpa using fun h => hid h.symm
    simp only [hk]
    rw [← List.find?_append, List.take_append_drop]

/-- Below the counter, insertion adds the new record under the counter's value
and leaves every other lookup as it was. -/
theorem get_entry_by_id_addEntry (slot : List Nat → Nat → Nat) (s : Cdb) (t : Record)
    (h : s.Below) (id : Nat) :
    get_entry_by_id (addEntry slot s t) id
      = if id = s.m_entry_num then some t else get_entry_by_id s id := by
  have hf : ∀ e ∈ s.m_entries, e.1 ≠ s.m_entry_num := fun e he => Nat.ne_of_lt (h e he)
  rw [get_entry_by_id_eq_find, get_entry_by_id_eq_find]
  simp only [addEntry, assign_fresh slot _ _ _ hf]
  rw [find?_key_insert_at _ _ _ _ _ hf]
  by_cases hid : id = s.m_entry_num
  · rw [if_pos hid, if_pos hid]; rfl
  · rw [if_neg hid, if_neg hid]

theorem get_entry_by_id_none_of_below (s : Cdb) (h : s.Below) (id : Nat)
    (hid : s.m_entry_num ≤ id) : get_entry_by_id s id = none := by
  rw [get_entry_by_id_eq_find, find?_key_none]
  · rfl
  · intro e he heq
    have := h e he
    omega

theorem addEntry_perm (slot : List Nat → Nat → Nat) (s : Cdb) (t : Record) (h : s.Below) :
    (addEntry slot s t).m_entries.Perm ((s.m_entry_num, t) :: s.m_entries) := by
  have hf : ∀ e ∈ s.m_entries, e.1 ≠ s.m_entry_num := fun e he => Nat.ne_of_lt (h e he)
  simp only [addEntry, assign_fresh slot _ _ _ hf]
  refine List.perm_middle.trans ?_
  rw [List.take_append_drop]

/-- Effect of `addEntries` on a store whose identifiers lie below the counter. -/
theorem addEntries_spec (slot : List Nat → Nat → Nat) (ts : List Record) (s : Cdb)
    (h : s.Below) :
    (addEntries slot s ts).Below
      ∧ (addEntries slot s ts).m_entry_num = s.m_entry_num + ts.length
      ∧ (addEntries slot s ts).m_keys = s.m_keys
      ∧ total_entries (addEntries slot s ts) = total_entries s + ts.length
      ∧ (∀ id, id < s.m_entry_num →
          get_entry_by_id (addEntries slot s ts) id = get_entry_by_id s id)
      ∧ (∀ i, get_entry_by_id (addEntries slot s ts) (s.m_entry_num + i) = ts[i]?)
      ∧ ((addEntries slot s ts).m_entries.map Prod.snd).Perm
          (s.m_entries.map Prod.snd ++ ts) := by
  induction ts generalizing s with
  | nil =>
    refine ⟨h, rfl, rfl, rfl, fun _ _ => rfl, ?_, by simp [addEntries]⟩
    intro i
    exact get_entry_by_id_none_of_below s h _ (Nat.le_add_right _ _)
  | cons t ts ih =>
    obtain ⟨b1, b2, b3, b4⟩ := addEntry_below slot s t h
    obtain ⟨i1, i2, i3, i4, i5, i6, i7⟩ := ih (addEntry slot s t) b1
    have hstep : addEntries slot s (t :: ts) = addEntries slot (addEntry slot s t) ts := rfl
    rw [hstep]
    refine ⟨i1, ?_, ?_, ?_, ?_, ?_, ?_⟩
    · rw [i2, b3, List.length_cons]; omega
    · rw [i3, b4]
    · rw [i4]; simp only [total_entries, b2, List.length_cons]; omega
    · intro id hid
      rw [i5 id (by rw [b3]; omega), get_entry_by_id_addEntry slot s t h,
        if_neg (Nat.ne_of_lt hid)]
    · intro i
      cases i with
      | zero =>
        rw [Nat.add_zero, i5 _ (by rw [b3]; omega), get_entry_by_id_addEntry slot s t h,
          if_pos rfl, List.getElem?_cons_zero]
      | succ i =>
        have := i6 i
        rw [b3] at this
        rw [List.getElem?_cons_succ, ← this]
        congr 1
        omega
    · refine i7.trans ?_
      have hp := (addEntry_perm slot s t h).map Prod.snd
      refine (List.Perm.append_right ts hp).trans ?_
      simp only [List.map_cons, List.cons_append]
      exact (@List.perm_middle _ t (s.m_entries.map Prod.snd) ts).symm

theorem CdbReader_below (T : RecordType) : (CdbReader T).Below := by
  intro e he; simp [CdbReader_eq] at he

/-- C12.  After `addEntries(r_0, ..., r_{n-1})` on a freshly constructed store,
`get_entry(i)` returns `r_i` for every `i < n` and the empty optional for every
`i >= n`, and `total_entries()` is `n`. -/
theorem addEntries_get_entry (T : RecordType) (slot : List Nat → Nat → Nat)
    (rs : List Record) :
    (∀ i, get_entry_by_id (addEntries slot (CdbReader T) rs) i = rs[i]?)
      ∧ (∀ i (h : i < rs.length),
          get_entry_by_id (addEntries slot (CdbReader T) rs) i = some (rs.get ⟨i, h⟩))
      ∧ (∀ i, rs.length ≤ i → get_entry_by_id (addEntries slot (CdbReader T) rs) i = none)
      ∧ total_entries (addEntries slot (CdbReader T) rs) = rs.length := by
  obtain ⟨_, _, _, h4, _, h6, _⟩ := addEntries_spec slot rs (CdbReader T) (CdbReader_below T)
  have h0 : (CdbReader T).m_entry_num = 0 := by rw [CdbReader_eq]
  have ht : total_entries (CdbReader T) = 0 := by simp [CdbReader_eq, total_entries]
  have hget : ∀ i, get_entry_by_id (addEntries slot (CdbReader T) rs) i = rs[i]? := by
    intro i
    have := h6 i
    rw [h0, Nat.zero_add] at this
    exact this
  refine ⟨hget, ?_, ?_, by rw [h4, ht, Nat.zero_add]⟩
  · intro i h
    rw [hget, List.getElem?_eq_getElem h]
    rfl
  · intro i h
    rw [hget, List.getElem?_eq_none h]

/-- Three records added to a fresh `Person` store: identifier 1 holds the
second, identifier 3 is not found, and there are 3 entries. -/
theorem addEntries_get_entry_witness :
    get_entry_by_id (addEntries slotBack (CdbReader Person)
        [person "a" 5, person "b" 5, person "a" 7]) 1 = some (person "b" 5)
      ∧ get_entry_by_id (addEntries slotBack (CdbReader Person)
          [person "a" 5, person "b" 5, person "a" 7]) 3 = none
      ∧ total_entries (addEntries slotBack (CdbReader Person)
          [person "a" 5, person "b" 5, person "a" 7]) = 3 :=
  ⟨(addEntries_get_entry Person slotBack [person "a" 5, person "b" 5, person "a" 7]).1 1,
    (addEntries_get_entry Person slotBack
      [person "a" 5, person "b" 5, person "a" 7]).2.2.1 3 (by decide),
    (addEntries_get_entry Person slotBack [person "a" 5, person "b" 5, person "a" 7]).2.2.2⟩

/-! ## Loading whole records -/

/-- On a record region made of whole records the loop of `parse` is
`addEntries` of these records, in file order. -/
theorem parse_loop_whole (T : RecordType) (slot : List Nat → Nat → Nat) (uninit : Record)
    (hR : 0 < T.sizeofT) (hu : uninit.length = T.sizeofT) (rs : List Record)
    (hrs : ∀ r ∈ rs, r.length = T.sizeofT) (fuel : Nat) (hfuel : rs.flatten.length ≤ fuel)
    (s : Cdb) : parse_loop T slot uninit fuel rs.flatten s = addEntries slot s rs := by
  induction rs generalizing fuel s with
  | nil => cases fuel <;> rfl
  | cons r rs ih =>
    have hr : r.length = T.sizeofT := hrs r (List.mem_cons_self r rs)
    have hne : r ++ rs.flatten ≠ [] := by
      intro h
      have := congrArg List.length h
      rw [List.length_append, hr] at this
      simp only [List.length_nil] at this
      omega
    obtain ⟨b, tl, hbt⟩ := List.exists_cons_of_ne_nil hne
    rw [List.flatten_cons] at hfuel ⊢
    cases fuel with
    | zero =>
      rw [List.length_append, hr] at hfuel
      omega
    | succ fuel =>
      have htake : List.take T.sizeofT (b :: tl) = r := by
        rw [← hbt]; exact List.take_left' hr
      have hdrop : List.drop T.sizeofT (b :: tl) = rs.flatten := by
        rw [← hbt]; exact List.drop_left' hr
      have hbuf : r ++ List.drop r.length uninit = r := by
        rw [hr, List.drop_of_length_le (le_of_eq hu), List.append_nil]
      rw [hbt]
      simp only [parse_loop, htake, hdrop, hbuf]
      rw [if_neg (by omega)]
      rw [List.length_append, hr] at hfuel
      exact ih (fun x hx => hrs x (List.mem_cons_of_mem r hx)) fuel (by omega) _

/-- `parse` of a file whose record region is made of whole records. -/
theorem parse_whole (T : RecordType) (slot : List Nat → Nat → Nat) (uninit : Record)
    (hR : 0 < T.sizeofT) (hu : uninit.length = T.sizeofT) (file : Bytes) (s : Cdb)
    (rs : List Record) (hfile : 4 ≤ file.length)
    (hK : 4 + ofLE (file.take 4) * 34 < 2 ^ 32)
    (hrs : ∀ r ∈ rs, r.length = T.sizeofT)
    (hreg : file.drop (4 + ofLE (file.take 4) * 34) = rs.flatten) :
    parse T slot uninit file s = addEntries slot s rs := by
  unfold parse
  rw [if_neg (by omega)]
  simp only []
  rw [Nat.mod_eq_of_lt (show ofLE (file.take 4) < 2 ^ 32 by omega),
    Nat.mod_eq_of_lt (show ofLE (file.take 4) * 34 < 2 ^ 32 by omega),
    Nat.mod_eq_of_lt hK, hreg]
  exact parse_loop_whole T slot uninit hR hu rs hrs _ (le_refl _) s

/-- The claim of C11 fails: parsing a file of 2 whole records into a store that
holds 3 entries gives 5 entries, not 2, and the record held under identifier 2
before the call is still there. -/
theorem parse_replaces_table_counterexample :
    ((publish Person allFiveStore).length - (4 + 2 * 34)) / 8 = 2
      ∧ total_entries exampleStore = 3
      ∧ total_entries (parse Person slotBack (List.replicate 8 170)
          (publish Person allFiveStore) exampleStore) = 5
      ∧ ¬ total_entries (parse Person slotBack (List.replicate 8 170)
          (publish Person allFiveStore) exampleStore) = 2
      ∧ get_entry_by_id (parse Person slotBack (List.replicate 8 170)
          (publish Person allFiveStore) exampleStore) 2 = some (person "a" 7) := by
  decide

/-- C11, amended.  `parse` appends: for a store whose identifiers lie below the
counter and a file whose record region consists of the whole records `rs`,
after `parse(file)` every previously held entry is still found under its
identifier, the records of the file are found under the next identifiers in
file order, the table holds exactly the previous records together with `rs`,
and `total_entries()` has grown by the number of records in the file. -/
theorem parse_appends (T : RecordType) (slot : List Nat → Nat → Nat) (uninit : Record)
    (s : Cdb) (file : Bytes) (rs : List Record) (hR : 0 < T.sizeofT)
    (hu : uninit.length = T.sizeofT) (hs : s.Below) (hfile : 4 ≤ file.length)
    (hK : 4 + ofLE (file.take 4) * 34 < 2 ^ 32)
    (hrs : ∀ r ∈ rs, r.length = T.sizeofT)
    (hreg : file.drop (4 + ofLE (file.take 4) * 34) = rs.flatten) :
    total_entries (parse T slot uninit file s) = total_entries s + rs.length
      ∧ (∀ id, id < s.m_entry_num →
          get_entry_by_id (parse T slot uninit file s) id = get_entry_by_id s id)
      ∧ (∀ i, get_entry_by_id (parse T slot uninit file s) (s.m_entry_num + i) = rs[i]?)
      ∧ ((parse T slot uninit file s).m_entries.map Prod.snd).Perm
          (s.m_entries.map Prod.snd ++ rs)
      ∧ (parse T slot uninit file s).m_entry_num = s.m_entry_num + rs.length := by
  rw [parse_whole T slot uninit hR hu file s rs hfile hK hrs hreg]
  obtain ⟨_, h2, _, h4, h5, h6, h7⟩ := addEntries_spec slot rs s hs
  exact ⟨h4, h5, h6, h7, h2⟩

/-- Parsing the file of 2 records into the example store of 3 entries: 5
entries, the old ones in place, the new ones under identifiers 3 and 4. -/
theorem parse_appends_witness :
    total_entries (parse Person slotBack (List.replicate 8 170)
        (publish Person allFiveStore) exampleStore) = total_entries exampleStore + 2
      ∧ get_entry_by_id (parse Person slotBack (List.replicate 8 170)
          (publish Person allFiveStore) exampleStore) (3 + 1) = some (person "b" 5) :=
  ⟨(parse_appends Person slotBack (List.replicate 8 170) exampleStore
      (publish Person allFiveStore) [person "a" 5, person "b" 5] (by decide) (by decide)
      (by decide) (by decide) (by decide) (by decide) (by decide)).1,
    (parse_appends Person slotBack (List.replicate 8 170) exampleStore
      (publish Person allFiveStore) [person "a" 5, person "b" 5] (by decide) (by decide)
      (by decide) (by decide) (by decide) (by decide) (by decide)).2.2.1 1⟩

/-- Loading what `publish` wrote into a fresh store is `addEntries` of the
published records in the order they were written. -/
theorem parse_publish_eq (T : RecordType) (slot : List Nat → Nat → Nat) (uninit : Record)
    (s : Cdb) (hwf : s.WF T) (hR : 0 < T.sizeofT) (hu : uninit.length = T.sizeofT)
    (hK : 4 + s.m_keys.length * 34 < 2 ^ 32) :
    parse T slot uninit (publish T s) (CdbReader T)
      = addEntries slot (CdbReader T) (s.m_entries.map Prod.snd) := by
  have hlen := length_publish T s hwf
  have hk : ofLE ((publish T s).take 4) = s.m_keys.length := by
    rw [take_four_publish, ofLE_toLE]
    apply Nat.mod_eq_of_lt
    norm_num
    omega
  apply parse_whole T slot uninit hR hu _ _ _ (by omega)
  · rw [hk]; exact hK
  · intro r hr
    obtain ⟨e, he, rfl⟩ := List.mem_map.1 hr
    exact hwf.2 e he
  · rw [hk]; exact drop_header_publish T s hwf

/-- The `i`-th block of the record region of a published file is the `i`-th
record of the table in iteration order. -/
theorem slice_record_publish (T : RecordType) (s : Cdb) (hwf : s.WF T) (i : Nat)
    (e : Nat × Record) (he : s.m_entries[i]? = some e) :
    slice (publish T s) (4 + 34 * s.m_keys.length + T.sizeofT * i) T.sizeofT = e.2 := by
  have hk : T.fields.length = s.m_keys.length := by rw [hwf.1, List.length_map]
  have hpre : (toLE 4 s.m_keys.length ++ (s.m_keys.flatMap (fun key => resize key 30 0)
          ++ T.fields.flatMap (fun f => toLE 4 f.kind.byteSize))).length
      = 4 + 34 * s.m_keys.length := by
    simp only [List.length_append, length_toLE, length_names_region, length_sizes_region, hk]
    omega
  have hassoc : ∀ a b c d : Bytes, a ++ (b ++ (c ++ d)) = (a ++ (b ++ c)) ++ d := by
    intro a b c d; simp only [List.append_assoc]
  have hchunk := slice_flatMap_const (fun e : Nat × Record => e.2.take T.sizeofT) T.sizeofT
    s.m_entries
    (fun x hx => by rw [List.length_take, hwf.2 x hx, Nat.min_self]) i e he []
  rw [List.append_nil, List.take_of_length_le (le_of_eq (hwf.2 e (List.getElem?_mem he)))]
    at hchunk
  rw [publish_eq, hassoc, ← hpre]
  simp only [slice] at hchunk ⊢
  rw [List.drop_append]
  exact hchunk

/-- C16.  Loading the bytes written by `publish` into a freshly constructed
store yields a table in which, for every `i < N`, the record with identifier
`i` is the `i`-th record that `publish` wrote, which is the `i`-th record of the
publishing store in its iteration order; the loaded store holds the same
records with the same multiplicities, and `count_matches(k, v)` agrees on both
stores for every `k` and `v`. -/
theorem publish_parse_round_trip (T : RecordType) (slot : List Nat → Nat → Nat)
    (uninit : Record) (s : Cdb) (hwf : s.WF T) (hR : 0 < T.sizeofT)
    (hu : uninit.length = T.sizeofT) (hK : 4 + s.m_keys.length * 34 < 2 ^ 32) :
    (∀ i, get_entry_by_id (parse T slot uninit (publish T s) (CdbReader T)) i
        = (s.m_entries.map Prod.snd)[i]?)
      ∧ (∀ i, i < total_entries s →
          get_entry_by_id (parse T slot uninit (publish T s) (CdbReader T)) i
            = some (slice (publish T s) (4 + 34 * s.m_keys.length + T.sizeofT * i)
                T.sizeofT))
      ∧ ((parse T slot uninit (publish T s) (CdbReader T)).m_entries.map Prod.snd).Perm
          (s.m_entries.map Prod.snd)
      ∧ ∀ k v, count_matches T (parse T slot uninit (publish T s) (CdbReader T)) k v
          = count_matches T s k v := by
  rw [parse_publish_eq T slot uninit s hwf hR hu hK]
  obtain ⟨_, _, _, _, _, h6, h7⟩ :=
    addEntries_spec slot (s.m_entries.map Prod.snd) (CdbReader T) (CdbReader_below T)
  have h0 : (CdbReader T).m_entry_num = 0 := by rw [CdbReader_eq]
  have hnil : (CdbReader T).m_entries = [] := by rw [CdbReader_eq]
  have hget : ∀ i, get_entry_by_id (addEntries slot (CdbReader T) (s.m_entries.map Prod.snd)) i
      = (s.m_entries.map Prod.snd)[i]? := by
    intro i
    have := h6 i
    rw [h0, Nat.zero_add] at this
    exact this
  have hperm : ((addEntries slot (CdbReader T) (s.m_entries.map Prod.snd)).m_entries.map
      Prod.snd).Perm (s.m_entries.map Prod.snd) := by
    rw [hnil] at h7
    simpa using h7
  refine ⟨hget, ?_, hperm, ?_⟩
  · intro i hi
    obtain ⟨e, he⟩ : ∃ e, s.m_entries[i]? = some e :=
      ⟨s.m_entries[i], List.getElem?_eq_getElem hi⟩
    rw [hget, slice_record_publish T s hwf i e he, List.getElem?_map, he]
    rfl
  · intro k v
    rw [count_matches_eq_sum, count_matches_eq_sum]
    have hmap : ∀ m : List (Nat × Record),
        m.map (fun e => T.fields.countP
          (fun f => decide (f.name = k) && typeDirectedEq (readField e.2 f) v))
        = (m.map Prod.snd).map (fun r => T.fields.countP
          (fun f => decide (f.name = k) && typeDirectedEq (readField r f) v)) := by
      intro m; rw [List.map_map]; rfl
    rw [hmap, hmap]
    exact (hperm.map _).sum_eq

/-- The example store, published and loaded again: identifier 2 holds the third
record written, and `count_matches("age", 5)` is 2 on both stores. -/
theorem publish_parse_round_trip_witness :
    get_entry_by_id (parse Person slotBack (List.replicate 8 170)
        (publish Person exampleStore) (CdbReader Person)) 2 = some (person "a" 7)
      ∧ count_matches Person (parse Person slotBack (List.replicate 8 170)
          (publish Person exampleStore) (CdbReader Person)) (ascii "age") (.scalar 5) = 2
      ∧ count_matches Person (parse Person slotBack (List.replicate 8 170)
          (publish Person exampleStore) (CdbReader Person)) (ascii "age") (.scalar 5)
          = count_matches Person exampleStore (ascii "age") (.scalar 5) :=
  ⟨by decide, by decide,
    (publish_parse_round_trip Person slotBack (List.replicate 8 170) exampleStore
      (by decide) (by decide) (by decide) (by decide)).2.2.2 (ascii "age") (.scalar 5)⟩

/-! ## The header offset -/

/-- Without wrap-around of the header arithmetic, `parse` looks only at the
length of the file, its first four bytes and the bytes from `4 + K*34` on. -/
theorem parse_header_independent (T : RecordType) (slot : List Nat → Nat → Nat)
    (uninit : Record) (s : Cdb) (f g : Bytes) (hlen : f.length = g.length)
    (h4 : f.take 4 = g.take 4) (hK : 4 + ofLE (f.take 4) * 34 < 2 ^ 32)
    (hrest : f.drop (4 + ofLE (f.take 4) * 34) = g.drop (4 + ofLE (f.take 4) * 34)) :
    parse T slot uninit f s = parse T slot uninit g s := by
  unfold parse
  rw [← hlen, ← h4]
  simp only []
  rw [Nat.mod_eq_of_lt (show ofLE (f.take 4) < 2 ^ 32 by omega),
    Nat.mod_eq_of_lt (show ofLE (f.take 4) * 34 < 2 ^ 32 by omega),
    Nat.mod_eq_of_lt hK, ← hrest]

/-- Without wrap-around, a file that ends at or before offset `4 + K*34` loads
no entry. -/
theorem parse_short_file (T : RecordType) (slot : List Nat → Nat → Nat) (uninit : Record)
    (s : Cdb) (file : Bytes) (hK : 4 + ofLE (file.take 4) * 34 < 2 ^ 32)
    (hlen : file.length ≤ 4 + ofLE (file.take 4) * 34) :
    parse T slot uninit file s = s := by
  unfold parse
  by_cases h : file.length < 4
  · rw [if_pos h]
  · rw [if_neg h]
    simp only []
    rw [Nat.mod_eq_of_lt (show ofLE (file.take 4) < 2 ^ 32 by omega),
      Nat.mod_eq_of_lt (show ofLE (file.take 4) * 34 < 2 ^ 32 by omega),
      Nat.mod_eq_of_lt hK, List.drop_of_length_le hlen]
    rfl

/-- C13.  Two files of the same length with the same declared key count
`K = 126322568` and the same (empty) contents from offset `4 + K*34` on, which
differ only at offsets 20..27 inside the declared header, load as different
tables: `parse` seeks to `(4 + K*34) mod 2^32 = 20` and decodes the bytes there. -/
theorem parse_reads_inside_declared_header :
    (wrapFile (person "a" 5)).length = (wrapFile (person "b" 7)).length
      ∧ (wrapFile (person "a" 5)).take 4 = (wrapFile (person "b" 7)).take 4
      ∧ ofLE ((wrapFile (person "a" 5)).take 4) = 126322568
      ∧ (wrapFile (person "a" 5)).drop (4 + 126322568 * 34)
          = (wrapFile (person "b" 7)).drop (4 + 126322568 * 34)
      ∧ (parse Person slotBack (List.replicate 8 170) (wrapFile (person "a" 5))
            (CdbReader Person)).m_entries = [(0, person "a" 5)]
      ∧ (parse Person slotBack (List.replicate 8 170) (wrapFile (person "b" 7))
            (CdbReader Person)).m_entries = [(0, person "b" 7)]
      ∧ (parse Person slotBack (List.replicate 8 170) (wrapFile (person "a" 5))
            (CdbReader Person)).m_entries
          ≠ (parse Person slotBack (List.replicate 8 170) (wrapFile (person "b" 7))
            (CdbReader Person)).m_entries := by
  decide

/-- C14.  For the declared key count `K = 126322568` the offset `4 + K*34` is
`2^32 + 20`; a file of 28 bytes, far shorter than that, still loads one entry,
decoded from offset 20. -/
theorem parse_header_offset_wraps :
    ofLE ((wrapFile (person "a" 5)).take 4) = 126322568
      ∧ 4 + 126322568 * 34 = 2 ^ 32 + 20
      ∧ (wrapFile (person "a" 5)).length = 28
      ∧ (wrapFile (person "a" 5)).length ≤ 4 + 126322568 * 34
      ∧ total_entries (parse Person slotBack (List.replicate 8 170)
          (wrapFile (person "a" 5)) (CdbReader Person)) = 1
      ∧ get_entry_by_id (parse Person slotBack (List.replicate 8 170)
          (wrapFile (person "a" 5)) (CdbReader Person)) 0
          = some (slice (wrapFile (person "a" 5)) 20 8) := by
  decide

/-! ## Dense identifiers -/

theorem Dense.below {s : Cdb} (h : s.Dense) : s.Below := by
  intro e he
  have : e.1 ∈ List.range s.m_entry_num :=
    (List.Perm.mem_iff h).1 (List.mem_map.2 ⟨e, he, rfl⟩)
  exact List.mem_range.1 this

theorem CdbReader_dense (T : RecordType) : (CdbReader T).Dense := by
  unfold Cdb.Dense
  rw [CdbReader_eq]
  exact List.Perm.refl _

theorem addEntry_dense (slot : List Nat → Nat → Nat) (s : Cdb) (t : Record) (h : s.Dense) :
    (addEntry slot s t).Dense := by
  have hp := (addEntry_perm slot s t (Dense.below h)).map Prod.fst
  unfold Cdb.Dense at h ⊢
  have hnum : (addEntry slot s t).m_entry_num = s.m_entry_num + 1 := rfl
  rw [hnum, List.range_succ]
  refine hp.trans ?_
  rw [List.map_cons]
  exact ((List.perm_append_singleton s.m_entry_num _).trans (List.Perm.cons _ h.symm)).symm

theorem addEntries_dense (slot : List Nat → Nat → Nat) (ts : List Record) (s : Cdb)
    (h : s.Dense) : (addEntries slot s ts).Dense := by
  induction ts generalizing s with
  | nil => exact h
  | cons t ts ih => exact ih (addEntry slot s t) (addEntry_dense slot s t h)

theorem parse_loop_dense (T : RecordType) (slot : List Nat → Nat → Nat) (uninit : Record)
    (fuel : Nat) (rest : Bytes) (s : Cdb) (h : s.Dense) :
    (parse_loop T slot uninit fuel rest s).Dense := by
  induction fuel generalizing rest s with
  | zero => exact h
  | succ fuel ih =>
    cases rest with
    | nil => exact h
    | cons b tl =>
      simp only [parse_loop]
      split
      · exact addEntry_dense slot s _ h
      · exact ih _ _ (addEntry_dense slot s _ h)

theorem parse_dense (T : RecordType) (slot : List Nat → Nat → Nat) (uninit : Record)
    (file : Bytes) (s : Cdb) (h : s.Dense) : (parse T slot uninit file s).Dense := by
  unfold parse
  split
  · exact h
  · exact parse_loop_dense T slot uninit _ _ s h

theorem replace_value_call_dense (T : RecordType) (k : Bytes) (args : ValuePair) (s : Cdb)
    (h : s.Dense) : (replace_value_call T k args s).Dense := by
  obtain ⟨h1, _, h3, _⟩ := replace_value_call_frame T s k args
  unfold Cdb.Dense at h ⊢
  rw [h1, h3]
  exact h

theorem Reachable.dense {T : RecordType} {s : Cdb} (h : Reachable T s) : s.Dense := by
  induction h with
  | fresh => exact CdbReader_dense T
  | of_addEntries slot ts _ ih => exact addEntries_dense slot ts _ ih
  | of_parse slot uninit file _ ih => exact parse_dense T slot uninit file _ ih
  | of_replace_value key args _ ih => exact replace_value_call_dense T key args _ ih

theorem get_entry_by_id_isSome_iff (s : Cdb) (id : Nat) :
    (get_entry_by_id s id).isSome = true ↔ id ∈ s.m_entries.map Prod.fst := by
  rw [get_entry_by_id_eq_find, Option.isSome_map', List.find?_isSome]
  constructor
  · rintro ⟨e, he, hk⟩
    exact List.mem_map.2 ⟨e, he, by simpa using hk⟩
  · intro h
    obtain ⟨e, he, hk⟩ := List.mem_map.1 h
    exact ⟨e, he, by simpa using hk⟩

/-- C17.  In every state reachable from a freshly constructed store by
`addEntries`, `parse` and `replace_value` (the queries leave the state alone),
the identifiers of the table are exactly `0, ..., m_entry_num - 1`, each once;
so `total_entries()` equals `m_entry_num`, `get_entry(id)` is found if and only
if `id < total_entries()`, and an insertion adds one entry and leaves every
entry already present in place. -/
theorem reachable_dense_identifiers (T : RecordType) (s : Cdb) (h : Reachable T s) :
    (∀ id, id ∈ s.m_entries.map Prod.fst ↔ id < s.m_entry_num)
      ∧ (s.m_entries.map Prod.fst).Nodup
      ∧ total_entries s = s.m_entry_num
      ∧ (∀ id, (get_entry_by_id s id).isSome = true ↔ id < total_entries s)
      ∧ (∀ (slot : List Nat → Nat → Nat) (t : Record),
          total_entries (addEntry slot s t) = total_entries s + 1
            ∧ ∀ id, id < total_entries s →
                get_entry_by_id (addEntry slot s t) id = get_entry_by_id s id) := by
  have hd : s.Dense := Reachable.dense h
  have hmem : ∀ id, id ∈ s.m_entries.map Prod.fst ↔ id < s.m_entry_num := by
    intro id
    rw [List.Perm.mem_iff hd, List.mem_range]
  have htot : total_entries s = s.m_entry_num := by
    have := List.Perm.length_eq hd
    rw [List.length_map, List.length_range] at this
    exact this
  refine ⟨hmem, (List.Perm.nodup_iff hd).2 (List.nodup_range _), htot, ?_, ?_⟩
  · intro id
    rw [get_entry_by_id_isSome_iff, hmem, htot]
  · intro slot t
    refine ⟨(addEntry_below slot s t (Dense.below hd)).2.1, ?_⟩
    intro id hid
    rw [get_entry_by_id_addEntry slot s t (Dense.below hd), if_neg (by omega)]

/-- The example store, after a further `parse` and a `replace_value`, is
reachable: it has 5 entries and its counter is 5. -/
theorem reachable_dense_identifiers_witness :
    total_entries (replace_value_call Person (ascii "age") (.scalar 5 6)
        (parse Person slotBack (List.replicate 8 170) (publish Person allFiveStore)
          (addEntries slotBack (CdbReader Person)
            [person "a" 5, person "b" 5, person "a" 7]))) = 5
      ∧ total_entries (replace_value_call Person (ascii "age") (.scalar 5 6)
          (parse Person slotBack (List.replicate 8 170) (publish Person allFiveStore)
            (addEntries slotBack (CdbReader Person)
              [person "a" 5, person "b" 5, person "a" 7])))
          = (replace_value_call Person (ascii "age") (.scalar 5 6)
              (parse Person slotBack (List.replicate 8 170) (publish Person allFiveStore)
                (addEntries slotBack (CdbReader Person)
                  [person "a" 5, person "b" 5, person "a" 7]))).m_entry_num :=
  ⟨by decide,
    (reachable_dense_identifiers Person _
      (Reachable.of_replace_value (ascii "age") (.scalar 5 6)
        (Reachable.of_parse slotBack (List.replicate 8 170) (publish Person allFiveStore)
          (Reachable.of_addEntries slotBack [person "a" 5, person "b" 5, person "a" 7]
            Reachable.fresh)))).2.2.1⟩

/-! ## Repeating a replacement -/

theorem replace_value_call_eq (T : RecordType) (k : Bytes) (args : ValuePair) (s : Cdb) :
    replace_value_call T k args s
      = { s with m_entries :=
            s.m_entries.map (fun e => (e.1, replace_in_record T k args e.2)) } := by
  cases args <;> rfl

/-- Writing twice at the same place keeps the second write. -/
theorem overwrite_overwrite (r : Bytes) (off : Nat) (bs bs' : Bytes)
    (h : off + bs.length ≤ r.length) (hl : bs'.length = bs.length) :
    overwrite (overwrite r off bs) off bs' = overwrite r off bs' := by
  have hto : (r.take off).length = off := by rw [List.length_take]; omega
  unfold overwrite
  have h1 : List.take off (List.take off r ++ bs ++ List.drop (off + bs.length) r)
      = List.take off r := by
    rw [List.append_assoc]; exact List.take_left' hto
  have h2 : List.drop (off + bs'.length)
      (List.take off r ++ bs ++ List.drop (off + bs.length) r)
      = List.drop (off + bs.length) r := by
    apply List.drop_left'
    rw [List.length_append, hto, hl]
  rw [h1, h2, hl]

theorem strncpy_s_idem (dest src : Bytes) (cap : Nat) (hd : dest.length = cap) :
    strncpy_s (strncpy_s dest cap src (cap - 1)) cap src (cap - 1)
      = strncpy_s dest cap src (cap - 1) := by
  unfold strncpy_s
  simp only []
  by_cases h : min (cap - 1) (cstr src).length < cap
  · rw [if_pos h, if_pos h]
    apply overwrite_overwrite _ _ _ _ _ rfl
    simp only [List.length_append, List.length_take, List.length_singleton]
    omega
  · rw [if_neg h, if_neg h]

/-- One record: running the visitors of the generic overload a second time
changes nothing. -/
theorem foldl_replace_visit_idem (T : RecordType) (hT : T.WF) (k : Bytes) (old new : Nat)
    (r : Record) (hr : r.length = T.sizeofT) :
    T.fields.foldl (replace_visit k old new) (T.fields.foldl (replace_visit k old new) r)
      = T.fields.foldl (replace_visit k old new) r := by
  by_cases hex : ∃ f0 ∈ T.fields,
      f0.name = k ∧ typeDirectedEq (readField r f0) (.scalar old) = true
  · obtain ⟨f0, hf0, hk0, hm0⟩ := hex
    obtain ⟨size, hkind, hval⟩ := typeDirectedEq_scalar r f0 old hm0
    have hin := hT.2.1 f0 hf0
    rw [hkind] at hin
    simp only [FieldKind.byteSize] at hin
    rw [foldl_replace_visit_match T hT k old new r f0 size hf0 hk0 hkind hval,
      foldl_visit_named _ k (fun r f h => replace_visit_other_name k old new r f h)
        T.fields hT.1 f0 hf0 hk0]
    unfold replace_visit
    rw [hkind]
    simp only []
    split
    · exact overwrite_overwrite _ _ _ _ (by rw [length_toLE]; omega) rfl
    · rfl
  · have hsame : T.fields.foldl (replace_visit k old new) r = r := by
      apply foldl_fixed
      intro f hf
      apply replace_visit_no_match
      by_contra hc
      simp only [Bool.not_eq_false, Bool.and_eq_true, decide_eq_true_eq] at hc
      exact hex ⟨f, hf, hc⟩
    rw [hsame, hsame]

/-- One record: running the visitors of the `const char*` overload a second
time changes nothing. -/
theorem foldl_replace_visit_cstr_idem (T : RecordType) (hT : T.WF) (k old new : Bytes)
    (r : Record) (hr : r.length = T.sizeofT) :
    T.fields.foldl (replace_visit_cstr k old new)
        (T.fields.foldl (replace_visit_cstr k old new) r)
      = T.fields.foldl (replace_visit_cstr k old new) r := by
  by_cases hex : ∃ f0 ∈ T.fields,
      f0.name = k ∧ typeDirectedEq (readField r f0) (.text old) = true
  · obtain ⟨f0, hf0, hk0, hm0⟩ := hex
    obtain ⟨cap, hkind, hval⟩ := typeDirectedEq_text r f0 old hm0
    have hin := hT.2.1 f0 hf0
    rw [hkind] at hin
    simp only [FieldKind.byteSize] at hin
    have hsl : (slice r f0.offset cap).length = cap := length_slice _ _ _ (by omega)
    have hnl : (strncpy_s (slice r f0.offset cap) cap new (cap - 1)).length = cap :=
      length_strncpy_s _ _ _ hsl
    have hin2 : f0.offset + (strncpy_s (slice r f0.offset cap) cap new (cap - 1)).length
        ≤ r.length := by rw [hnl]; omega
    have hsame : slice (overwrite r f0.offset
        (strncpy_s (slice r f0.offset cap) cap new (cap - 1))) f0.offset cap
        = strncpy_s (slice r f0.offset cap) cap new (cap - 1) := by
      have := slice_overwrite_same r f0.offset _ hin2
      rw [hnl] at this
      exact this
    rw [foldl_replace_visit_cstr_match T hT k old new r f0 cap hf0 hk0 hkind hval,
      foldl_visit_named _ k (fun r f h => replace_visit_cstr_other_name k old new r f h)
        T.fields hT.1 f0 hf0 hk0]
    unfold replace_visit_cstr
    rw [hkind]
    simp only []
    split
    · rw [hsame, strncpy_s_idem _ _ _ hsl]
      exact overwrite_overwrite _ _ _ _ hin2 rfl
    · rfl
  · have hsame : T.fields.foldl (replace_visit_cstr k old new) r = r := by
      apply foldl_fixed
      intro f hf
      apply replace_visit_cstr_no_match
      by_contra hc
      simp only [Bool.not_eq_false, Bool.and_eq_true, decide_eq_true_eq] at hc
      exact hex ⟨f, hf, hc⟩
    rw [hsame, hsame]

theorem replace_in_record_idem (T : RecordType) (hT : T.WF) (k : Bytes) (args : ValuePair)
    (r : Record) (hr : r.length = T.sizeofT) :
    replace_in_record T k args (replace_in_record T k args r) = replace_in_record T k args r := by
  cases args with
  | scalar value new_value => exact foldl_replace_visit_idem T hT k value new_value r hr
  | text value new_value => exact foldl_replace_visit_cstr_idem T hT k value new_value r hr

/-- C15.  `replace_value(k, old, new)` applied twice leaves the store, and so
the Entry Table, as the first call left it: the second call changes nothing. -/
theorem replace_value_twice (T : RecordType) (s : Cdb) (k : Bytes) (args : ValuePair)
    (hT : T.WF) (hs : s.WF T) :
    replace_value_call T k args (replace_value_call T k args s)
        = replace_value_call T k args s
      ∧ (replace_value_call T k args (replace_value_call T k args s)).m_entries
        = (replace_value_call T k args s).m_entries := by
  have key : replace_value_call T k args (replace_value_call T k args s)
      = replace_value_call T k args s := by
    rw [replace_value_call_eq T k args (replace_value_call T k args s),
      replace_value_call_eq T k args s]
    simp only [List.map_map, Function.comp_def]
    congr 1
    apply List.map_congr_left
    intro e he
    rw [replace_in_record_idem T hT k args e.2 (hs.2 e he)]
  exact ⟨key, by rw [key]⟩

/-- On the example store `replace_value("name", "a", "c")` twice gives the same
table as once, and so does `replace_value("age", 5, 5)`. -/
theorem replace_value_twice_witness :
    (replace_value_call Person (ascii "name") (.text (ascii "a") (ascii "c"))
        (replace_value_call Person (ascii "name") (.text (ascii "a") (ascii "c"))
          exampleStore)).m_entries
        = [(0, person "c" 5), (1, person "b" 5), (2, person "c" 7)]
      ∧ replace_value_call Person (ascii "name") (.text (ascii "a") (ascii "c"))
          (replace_value_call Person (ascii "name") (.text (ascii "a") (ascii "c"))
            exampleStore)
        = replace_value_call Person (ascii "name") (.text (ascii "a") (ascii "c"))
            exampleStore
      ∧ replace_value_call Person (ascii "age") (.scalar 5 5)
          (replace_value_call Person (ascii "age") (.scalar 5 5) exampleStore)
        = replace_value_call Person (ascii "age") (.scalar 5 5) exampleStore :=
  ⟨by decide,
    (replace_value_twice Person exampleStore (ascii "name") (.text (ascii "a") (ascii "c"))
      (by decide) (by decide)).1,
    (replace_value_twice Person exampleStore (ascii "age") (.scalar 5 5)
      (by decide) (by decide)).1⟩

/-! ## Match counts across a replacement -/

end Database
